import Mathlib

/-!
# Verification of the versioned SOP ingestion & retrieval pipeline

Shallow embedding, in Lean 4, of the core logic of the
`pharma_sop_rag_fasa` repository, together with theorems settling the
specification claims about it.

Conventions used throughout:
* Python strings are embedded as `List Char` (ASCII inputs);
* Python `float` values coming from parsing decimal version strings and
  from relevance scores are embedded as `ℚ` (exact for every value the
  claims mention);
* the Qdrant collection is embedded as a list of points with their
  payloads; external collaborators (the Qdrant/LlamaIndex retriever,
  the Markdown structural splitter, the sentence splitter) are either
  parameters of the embedded functions or definitions explicitly marked
  as modelled from their documented contract.
-/

/-! ## Basic Python text primitives -/

/-- Python `str.strip()` whitespace class (ASCII): space, tab, newline,
carriage return, vertical tab, form feed.  Same class as `\s` in the
repository's ASCII regexes. -/
def pyIsWs (c : Char) : Bool :=
  c = ' ' || c = '\t' || c = '\n' || c = '\r' || c = Char.ofNat 11 || c = Char.ofNat 12

/-- Python `str.strip()` on a character list. -/
def pyStrip (s : List Char) : List Char :=
  ((s.dropWhile pyIsWs).reverse.dropWhile pyIsWs).reverse

/-- ASCII lower-casing, as Python `str.lower()` acts on ASCII input. -/
def pyLowerChar (c : Char) : Char :=
  if 'A' ≤ c ∧ c ≤ 'Z' then Char.ofNat (c.toNat + 32) else c

def pyLower (s : List Char) : List Char := s.map pyLowerChar

def isDigitChar (c : Char) : Bool := '0' ≤ c && c ≤ '9'

def isAlphaChar (c : Char) : Bool :=
  ('a' ≤ c && c ≤ 'z') || ('A' ≤ c && c ≤ 'Z')

/-- Shorthand turning a string literal into the `List Char` embedding. -/
def sl (s : String) : List Char := s.data

/-! ## Store model (Qdrant collection)

A stored point's payload, as written by the ingestion pipeline
(`loader.py` sets `document_number`, `sop_title`, `version_number`,
`status`, the passage text and friends; `vector_db.py` reads exactly
these keys back).  `document_number` is `none` when the metadata key is
absent; the numeric `version_number` is embedded directly as `ℚ`
(`insert_nodes` parses it with `float(...)`, falling back to `1.0`). -/

inductive PStatus where
  | Active
  | Inactive
deriving DecidableEq, Repr

structure Point where
  docNum : Option (List Char)
  title : List Char
  version : ℚ
  status : PStatus
  text : List Char
deriving DecidableEq, Repr

/-- The scroll filter of `_resolve_version_status`: currently `Active`
chunks for this specific document number + title. -/
def isKeyActive (dn t : List Char) (p : Point) : Bool :=
  p.docNum = some dn && p.title = t && p.status = PStatus.Active

/-- `QdrantManager._set_db_status_inactive`: `set_payload` with
`{"status": "Inactive"}` under a filter matching `document_number` and
`sop_title` only (no status condition), i.e. every point for the key is
flipped to `Inactive`. -/
def setDbStatusInactive (store : List Point) (dn t : List Char) : List Point :=
  store.map fun p =>
    if p.docNum = some dn ∧ p.title = t then { p with status := PStatus.Inactive } else p

/-- `QdrantManager._resolve_version_status`.  Returns the status decided
for the incoming batch together with the (possibly mutated) store: the
scroll (limit 1) looks for an `Active` point of the key; with none the
decision is `Active`; otherwise the stored point's `version_number` `E`
is compared with the incoming `N` (`N > E` retires the existing points
as a side effect and answers `Active`, `N < E` answers `Inactive`,
`N == E` answers `Active` with no mutation). -/
def resolveVersionStatus (store : List Point) (dn t : List Char) (incoming : ℚ) :
    PStatus × List Point :=
  match store.filter (isKeyActive dn t) with
  | [] => (PStatus.Active, store)
  | p :: _ =>
    if p.version < incoming then
      (PStatus.Active, setDbStatusInactive store dn t)
    else if incoming < p.version then
      (PStatus.Inactive, store)
    else
      (PStatus.Active, store)

/-- `QdrantManager.insert_nodes`.  An empty batch is refused (store
unchanged, mirroring the `return None`).  Otherwise the first node's
metadata decides: with a truthy `document_number` the version status is
resolved against the store; without one the code logs a warning and
defaults to `Active` with no store check.  Every incoming node is then
stamped with the determined status and appended to the collection. -/
def insertNodes (store : List Point) (nodes : List Point) : List Point :=
  match nodes with
  | [] => store
  | first :: _ =>
    let decided :=
      match first.docNum with
      | some d => if d = [] then (PStatus.Active, store) else
          resolveVersionStatus store d first.title first.version
      | none => (PStatus.Active, store)
    decided.2 ++ nodes.map fun p => { p with status := decided.1 }

/-- A batch of passages for one file ingest: every node of the batch
carries the same `document_number`, `sop_title` and `version_number`
metadata (the loader attaches one metadata record to all pages of a
file). -/
def mkBatch (dn t : List Char) (v : ℚ) (texts : List (List Char)) : List Point :=
  texts.map fun x => ⟨some dn, t, v, PStatus.Active, x⟩

/-- Folding a sequence of ingests of revisions of one logical document
through `insert_nodes`. -/
def ingestAll (dn t : List Char) (s : List Point) (specs : List (ℚ × List (List Char))) :
    List Point :=
  specs.foldl (fun st sp => insertNodes st (mkBatch dn t sp.1 sp.2)) s

/-- The highest `version_numeric` ever ingested across a sequence of
batches. -/
def maxSpecVer (specs : List (ℚ × List (List Char))) : ℚ :=
  match specs with
  | [] => 0
  | sp :: rest => rest.foldl (fun m q => max m q.1) sp.1

/-- Store invariant for one logical document key: every `Active` point
of the key carries version `M`, and at least one such point exists. -/
def keyActiveInv (dn t : List Char) (s : List Point) (M : ℚ) : Prop :=
  (∀ p ∈ s, isKeyActive dn t p = true → p.version = M) ∧
  (∃ p ∈ s, isKeyActive dn t p = true ∧ p.version = M)

/-! ## Identity & version resolver (`src/ingestion/versioning.py`)

`VersionManager` parses a filename into a title and a version.  The
regular expressions of the source are embedded as explicit character
scanners with the exact leftmost-match / greedy semantics of Python
`re`.  Functions that recurse on a non-structural argument take an
explicit fuel argument (always called with fuel ≥ input length, which
suffices) so that every definition reduces in the kernel. -/

/-- Does `TIMESTAMP_SUFFIX_PATTERN = [A-Za-z]{3}\d{10,}$` match the
whole remaining string starting here? -/
def tsMatchHere (cs : List Char) : Bool :=
  match cs with
  | a :: b :: c :: rest =>
    isAlphaChar a && isAlphaChar b && isAlphaChar c &&
      rest.all isDigitChar && decide (10 ≤ rest.length)
  | _ => false

/-- `re.sub(TIMESTAMP_SUFFIX_PATTERN, "", s)`: the pattern is anchored
at the end, so the leftmost match (if any) is removed together with
everything after it. -/
def stripTimestampSuffix : List Char → List Char
  | [] => []
  | c :: rest => if tsMatchHere (c :: rest) then [] else c :: stripTimestampSuffix rest

/-- The basename of a path (`pathlib.Path(...).name`): everything after
the last `/`. -/
def baseName (cs : List Char) : List Char :=
  (cs.reverse.takeWhile (fun c => ¬ c = '/')).reverse

/-- `pathlib.Path(...).stem`: the (base)name with its last suffix
removed; a suffix exists only when the last dot is neither the first
nor the last character of the name. -/
def pathStem (cs : List Char) : List Char :=
  let name := baseName cs
  match name.reverse.findIdx? (fun c => c = '.') with
  | some j =>
    let i := name.length - 1 - j
    if 0 < i ∧ i < name.length - 1 then name.take i else name
  | none => name

/-- Length of a match of `DUPLICATE_PATTERN = \s*\(\d+\)(\s*\d+)?`
starting exactly here (greedy, as the Python engine matches it). -/
def dupMatchLen (cs : List Char) : Option Nat :=
  let k := (cs.takeWhile pyIsWs).length
  match cs.drop k with
  | '(' :: r1 =>
    let d := (r1.takeWhile isDigitChar).length
    if d = 0 then none
    else
      match r1.drop d with
      | ')' :: r2 =>
        let k2 := (r2.takeWhile pyIsWs).length
        let d2 := ((r2.drop k2).takeWhile isDigitChar).length
        if d2 = 0 then some (k + d + 2) else some (k + d + 2 + k2 + d2)
      | _ => none
  | _ => none

/-- `re.sub(DUPLICATE_PATTERN, "", s)`: remove every non-overlapping
leftmost match (fuel-indexed scanner). -/
def removeDupMarksF : Nat → List Char → List Char
  | 0, _ => []
  | _, [] => []
  | fuel + 1, c :: rest =>
    match dupMatchLen (c :: rest) with
    | some L => removeDupMarksF fuel (rest.drop (L - 1))
    | none => c :: removeDupMarksF fuel rest

def removeDupMarks (cs : List Char) : List Char := removeDupMarksF cs.length cs

/-- `VersionManager._clean_stem`: strip the export-timestamp suffix,
take the path stem, remove OS duplicate markers, strip whitespace. -/
def cleanStem (filename : List Char) : List Char :=
  pyStrip (removeDupMarks (pathStem (stripTimestampSuffix filename)))

def isSepChar (c : Char) : Bool := c = '-' || c = '_' || c = ' '

def isOptPunct (c : Char) : Bool := c = '.' || c = '-' || c = '_'

/-- Greedy `(\.\d+)*` (fuel-indexed): returns the consumed characters. -/
def dottedTailF : Nat → List Char → List Char
  | 0, _ => []
  | fuel + 1, cs =>
    match cs with
    | '.' :: rest =>
      let d := rest.takeWhile isDigitChar
      if d = [] then [] else ('.' :: d) ++ dottedTailF fuel (rest.drop d.length)
    | _ => []

/-- Greedy `\d+(\.\d+)*` anchored here: the captured dotted numeric. -/
def grabDotted (cs : List Char) : Option (List Char) :=
  let d0 := cs.takeWhile isDigitChar
  if d0 = [] then none else some (d0 ++ dottedTailF cs.length (cs.drop d0.length))

/-- Try one alternative of `(v|ver|rev|version)` (case-insensitive)
followed by `[\.\-_]?` and the dotted numeric; `cs` starts right after
the separator.  Returns group 2 (the numeric) on success. -/
def tryMarker (m : List Char) (cs : List Char) : Option (List Char) :=
  if pyLower (cs.take m.length) = m then
    let after := cs.drop m.length
    match after with
    | c :: rest =>
      if isOptPunct c then
        match grabDotted rest with
        | some g => some g
        | none => grabDotted after
      else grabDotted after
    | [] => none
  else none

/-- The alternation `(v|ver|rev|version)`, tried in the engine's
left-to-right order. -/
def tryMarkers (cs : List Char) : Option (List Char) :=
  match tryMarker (sl "v") cs with
  | some g => some g
  | none =>
    match tryMarker (sl "ver") cs with
    | some g => some g
    | none =>
      match tryMarker (sl "rev") cs with
      | some g => some g
      | none => tryMarker (sl "version") cs

/-- `EXPLICIT_VERSION_PATTERN.search`: leftmost position whose
character is a separator `[\-_ ]` and where a marker + numeric follows.
Returns `(match.start, group 2)`. -/
def explicitSearchFrom : List Char → Nat → Option (Nat × List Char)
  | [], _ => none
  | c :: rest, p =>
    if isSepChar c then
      match tryMarkers rest with
      | some g => some (p, g)
      | none => explicitSearchFrom rest (p + 1)
    else explicitSearchFrom rest (p + 1)

def explicitSearch (cs : List Char) : Option (Nat × List Char) :=
  explicitSearchFrom cs 0

/-- `IMPLICIT_ID_PATTERN = [\-_](\d{2,3})$` searched: matches exactly
when the string ends in a separator followed by its trailing run of 2
or 3 digits.  Returns `(match.start, group 1)`. -/
def implicitSearch (cs : List Char) : Option (Nat × List Char) :=
  let r := cs.reverse
  let ds := r.takeWhile isDigitChar
  let k := ds.length
  if 2 ≤ k ∧ k ≤ 3 then
    match r.drop k with
    | c :: _ => if c = '-' || c = '_' then some (cs.length - k - 1, ds.reverse) else none
    | [] => none
  else none

/-- Python `str.split()` (split on whitespace runs, no empty parts),
fuel-indexed. -/
def splitWsF : Nat → List Char → List (List Char)
  | 0, _ => []
  | _, [] => []
  | fuel + 1, c :: rest =>
    if pyIsWs c then splitWsF fuel rest
    else
      let w := rest.takeWhile (fun d => ¬ pyIsWs d)
      (c :: w) :: splitWsF fuel (rest.drop w.length)

def splitWs (cs : List Char) : List (List Char) := splitWsF cs.length cs

/-- `" ".join(...)`. -/
def joinSpace : List (List Char) → List Char
  | [] => []
  | [w] => w
  | w :: ws => w ++ ' ' :: joinSpace ws

/-- `VersionManager.NOISE_WORDS`. -/
def noiseWords : List (List Char) :=
  [sl "stamped", sl "signed", sl "draft", sl "final", sl "english", sl "italian", sl "copy"]

/-- `VersionManager._clean_title`: separators to spaces, drop noise
words case-insensitively, re-join. -/
def cleanTitle (raw : List Char) : List Char :=
  let spaced := raw.map (fun c => if c = '_' || c = '-' then ' ' else c)
  let tokens := (splitWs spaced).filter (fun w => ! noiseWords.contains (pyLower w))
  pyStrip (joinSpace tokens)

/-- `re.sub(r"[^\d\.]", "", version_str)`. -/
def stripNonNumDot (cs : List Char) : List Char :=
  cs.filter (fun c => isDigitChar c || c = '.')

def digitsVal (cs : List Char) : Nat :=
  cs.foldl (fun a c => 10 * a + (c.toNat - 48)) 0

/-- Python `float(...)` on a string made only of digits and dots (all
the cleaned version strings): it succeeds exactly when there is at
least one digit and at most one dot, and yields the decimal value. -/
def pyFloatQ (cs : List Char) : Option ℚ :=
  if cs.any isDigitChar && decide (cs.count '.' ≤ 1) &&
      cs.all (fun c => isDigitChar c || c = '.') then
    let ip := cs.takeWhile isDigitChar
    match cs.drop ip.length with
    | [] => some (digitsVal ip)
    | _ :: fp => some ((digitsVal ip : ℚ) + (digitsVal fp : ℚ) / (10 ^ fp.length))
  else none

/-- `VersionManager._normalize_version`: strip every character that is
not a digit or a dot, parse as float; a parse failure is logged and
falls back to `0.0`. -/
def normalizeVersion (vs : List Char) : ℚ :=
  (pyFloatQ (stripNonNumDot vs)).getD 0

/-- The metadata record returned by `VersionManager.extract_metadata`
(minus the echoed `file_path`). -/
structure SopMeta where
  sopTitle : List Char
  versionOriginal : List Char
  versionFloat : ℚ
  fileName : List Char
deriving DecidableEq, Repr

/-- Steps 2–3 of `VersionManager.extract_metadata`: try the explicit
version marker, else the implicit trailing 2–3-digit id, else default
to `"1.0"`; the raw title is everything before the match. -/
def titleVersionOf (stem : List Char) : List Char × List Char :=
  match explicitSearch stem with
  | some sg => (stem.take sg.1, sg.2)
  | none =>
    match implicitSearch stem with
    | some sg => (stem.take sg.1, sg.2)
    | none => (stem, sl "1.0")

/-- `VersionManager.extract_metadata`: clean the stem, resolve title
and version string, polish the title with `_clean_title`, normalize the
version string to a float. -/
def extractMetadata (filePath : List Char) : SopMeta :=
  let originalFilename := baseName filePath
  let stem := cleanStem originalFilename
  ⟨cleanTitle (titleVersionOf stem).1, (titleVersionOf stem).2,
    normalizeVersion (titleVersionOf stem).2, originalFilename⟩

/-! ## Structure-aware chunker (`src/ingestion/chunker.py`)

`SOPChunker.chunk_documents` structurally splits documents with the
external `MarkdownNodeParser`, repairs orphan headers with
`_rebalance_headers`, sub-splits oversize blocks (> 3000 characters)
with the external `SentenceSplitter`, injects the citation context
header, and relinks prev/next relationships (a step that leaves text
and metadata untouched and is therefore not modelled).  The two
external splitters enter the embedding as the input block list and as a
function parameter respectively. -/

/-- A structural block / chunk: its text plus the metadata keys the
chunker reads (`filename`, `sop_title`, `version`, `page_label`,
`header_path`), each `none` when absent. -/
structure MDNode where
  text : List Char
  filename : Option (List Char)
  sopTitle : Option (List Char)
  version : Option (List Char)
  pageLabel : Option (List Char)
  headerPath : Option (List Char)
deriving DecidableEq, Repr

def wsRunLen (cs : List Char) : Nat := (cs.takeWhile pyIsWs).length

def nonNlRunLen (cs : List Char) : Nat :=
  (cs.takeWhile (fun c => ¬ c = '\n')).length

def allWs (cs : List Char) : Bool := cs.all pyIsWs

/-- Backtracking for `[^\n]+\s*$` after the whitespace: try `m` (the
number of characters consumed by `[^\n]+`) from the greedy maximum down
to 1; `\s*$` succeeds exactly when the remainder is all whitespace. -/
def tryNonNl (rest : List Char) : Nat → Option Nat
  | 0 => none
  | m + 1 => if allWs (rest.drop (m + 1)) then some (m + 1) else tryNonNl rest m

/-- Backtracking for `\s+[^\n]+\s*$`: try `k` (the number of whitespace
characters consumed by `\s+`) from the greedy maximum down to 1;
returns the total length consumed by `\s+[^\n]+`. -/
def tryWs (rest : List Char) : Nat → Option Nat
  | 0 => none
  | k + 1 =>
    match tryNonNl (rest.drop (k + 1)) (nonNlRunLen (rest.drop (k + 1))) with
    | some m => some (k + 1 + m)
    | none => tryWs rest k

/-- Match `#{1,6}\s+[^\n]+\s*$` against the whole of `cs` (the regex
engine only ever starts this group at `^` or right after `\n`): the
greedy hash run must have length 1–6, and the backtracking above
settles the rest.  Returns group 1 (`#{1,6}\s+[^\n]+`). -/
def hashRunLen (cs : List Char) : Nat := (cs.takeWhile (fun c => c = '#')).length

def groupMatch (cs : List Char) : Option (List Char) :=
  if 1 ≤ hashRunLen cs ∧ hashRunLen cs ≤ 6 then
    match tryWs (cs.drop (hashRunLen cs)) (wsRunLen (cs.drop (hashRunLen cs))) with
    | some km => some (cs.take (hashRunLen cs + km))
    | none => none
  else none

def searchOrphanFrom : List Char → Nat → Option (Nat × List Char)
  | [], _ => none
  | c :: rest, p =>
    if c = '\n' then
      match groupMatch rest with
      | some g => some (p, g)
      | none => searchOrphanFrom rest (p + 1)
    else searchOrphanFrom rest (p + 1)

/-- `orphan_pattern.search` for
`(?:^|\n)(#{1,6}\s+[^\n]+)\s*$` (leftmost match): the `^` alternative
at position 0, then each `\n` position in order.  Returns
`(match.start, group 1)`. -/
def searchOrphan (cs : List Char) : Option (Nat × List Char) :=
  match groupMatch cs with
  | some g => some (0, g)
  | none => searchOrphanFrom cs 0

/-- `SOPChunker._rebalance_headers` (fuel-indexed; the fuel is the list
length, which the loop consumes one node per iteration).  A node whose
text ends in an orphan header pushes that header to the start of the
next node when both carry the same `filename` metadata (defaults `"A"`
/ `"B"` as in the source); the shrunken node is kept only if nonempty;
the loop then continues at the modified next node.  The final node is
kept only if its stripped text is nonempty. -/
def rebalanceF : Nat → List MDNode → List MDNode
  | 0, _ => []
  | _, [] => []
  | _ + 1, [n] => if pyStrip n.text ≠ [] then [n] else []
  | fuel + 1, a :: b :: rest =>
    match searchOrphan a.text with
    | some pg =>
      if a.filename.getD (sl "A") = b.filename.getD (sl "B") then
        let aText := pyStrip (a.text.take pg.1)
        let b2 : MDNode := { b with text := pg.2 ++ '\n' :: '\n' :: b.text }
        (if aText ≠ [] then [{ a with text := aText }] else []) ++
          rebalanceF fuel (b2 :: rest)
      else a :: rebalanceF fuel (b :: rest)
    | none => a :: rebalanceF fuel (b :: rest)

def rebalance (nodes : List MDNode) : List MDNode := rebalanceF nodes.length nodes

/-- `"/"` → `" > "` (the `_get_header_path` breadcrumb formatting). -/
def replaceSlash : List Char → List Char
  | [] => []
  | c :: rest => (if c = '/' then sl " > " else [c]) ++ replaceSlash rest

/-- `SOPChunker._get_header_path`: the `header_path` metadata with `/`
turned into ` > `, or `"General Section"` when absent or empty. -/
def headerContextOf (n : MDNode) : List Char :=
  let hp := n.headerPath.getD []
  if hp ≠ [] then replaceSlash hp else sl "General Section"

/-- The injected citation context header of `chunk_documents` step 3. -/
def contextStr (n : MDNode) : List Char :=
  sl "CONTEXT: Doc: " ++ n.sopTitle.getD (n.filename.getD (sl "Unknown")) ++
    sl " | Ver: " ++ n.version.getD (sl "N/A") ++
    sl " | Page: " ++ n.pageLabel.getD (sl "N/A") ++ sl "\n" ++
    sl "SECTION: " ++ headerContextOf n ++ sl "\n" ++
    List.replicate 30 '-' ++ sl "\n"

/-- `SOPChunker.chunk_documents` from the structural (Markdown) blocks
onward: rebalance the orphan headers, sub-split any block over 3000
characters with the sentence `splitter` (an external collaborator,
passed as a parameter), then prefix every resulting passage with the
citation context header.  No passage is ever dropped here: there is no
minimum-length or boilerplate filter in the source.  (The relationship
relinking step and the `context_header` metadata write do not change
any passage's text and are omitted.) -/
def chunkFromBaseNodes (splitter : MDNode → List MDNode) (nodes : List MDNode) :
    List MDNode :=
  (rebalance nodes).flatMap fun node =>
    let subs := if 3000 < node.text.length then splitter node else [node]
    subs.map fun sub => { sub with text := contextStr sub ++ sub.text }

/-- A trivial stand-in for the external sentence splitter; the
theorems below only ever use it on blocks of at most 3000 characters,
where `chunk_documents` never invokes the splitter at all. -/
def idSplitter : MDNode → List MDNode := fun n => [n]

/-- `true` when no line of the string (other than possibly the first)
starts with `#` — i.e. no `'\n'` is immediately followed by `'#'`. -/
def noHashAfterNl : List Char → Bool
  | [] => true
  | c :: rest =>
    if c = '\n' ∧ rest.head? = some '#' then false else noHashAfterNl rest

/-- The `"n/a"` boilerplate block of claim C6, with ordinary metadata. -/
def naBase : MDNode :=
  ⟨sl "n/a", some (sl "f.pdf"), some (sl "Doc A"), some (sl "1.0"),
    some (sl "Page 2"), none⟩

/-! ## Retrieval engine (`src/rag/retriever.py`)

`FASAEngine` serves two read paths.  `query` runs the focused hybrid
engine built by `_build_engine` (an `Active`-filtered top-7 retriever,
a `SimilarityPostprocessor`, and the `MetadataTextRestorer`); `search`
runs the broad keyword discovery.  The external retriever (Qdrant +
LlamaIndex) enters the embedding as the candidate list it returns /
as a function parameter. -/

/-- A retrieved candidate node: its stored (lower-cased) text, the
metadata keys the engine reads, the payload status and the relevance
score the retriever attached. -/
structure Cand where
  text : List Char
  originalText : Option (List Char)
  sopTitle : Option (List Char)
  fileName : Option (List Char)
  pageLabel : Option (List Char)
  status : PStatus
  score : ℚ
deriving DecidableEq, Repr

/-- `string.punctuation` (the 32 ASCII punctuation characters). -/
def punctuation : List Char :=
  (List.range' 33 15 ++ List.range' 58 7 ++ List.range' 91 6 ++ List.range' 123 4).map
    Char.ofNat

/-- The merged stop-word set of `FASAEngine.search` (`stop_words` plus
`ADDITIONAL_STOP_WORDS`, 364 distinct words, transcribed verbatim). -/
def stopWords : List (List Char) :=
  [sl "a", sl "about", sl "above", sl "accordance", sl "according", sl "after", sl "again", 
   sl "against", sl "all", sl "already", sl "although", sl "always", sl "am", sl "amid", 
   sl "amidst", sl "among", sl "amongst", sl "amount", sl "an", sl "and", sl "annually", 
   sl "another", sl "any", sl "anybody", sl "anyone", sl "anything", sl "anywhere", sl "are", 
   sl "around", sl "as", sl "at", sl "bad", sl "base", sl "based", sl "bases", sl "basing", 
   sl "be", sl "became", sl "because", sl "become", sl "becomes", sl "becoming", sl "been", 
   sl "before", sl "being", sl "below", sl "beside", sl "besides", sl "between", sl "beyond", 
   sl "big", sl "both", sl "but", sl "by", sl "came", sl "can", sl "certain", sl "come", 
   sl "comes", sl "coming", sl "concerning", sl "consist", sl "consisted", sl "consisting", 
   sl "consists", sl "contain", sl "contained", sl "containing", sl "contains", sl "could", 
   sl "currently", sl "d", sl "daily", sl "describe", sl "described", sl "describing", 
   sl "despite", sl "did", sl "do", sl "does", sl "doing", sl "don", sl "down", sl "during", 
   sl "each", sl "early", sl "eg", sl "either", sl "ensure", sl "ensured", sl "ensuring", 
   sl "entire", sl "etc", sl "eventually", sl "everybody", sl "everyone", sl "everything", 
   sl "everywhere", sl "ex", sl "example", sl "except", sl "far", sl "few", sl "find", 
   sl "finding", sl "finds", sl "follow", sl "followed", sl "following", sl "for", sl "found", 
   sl "from", sl "further", sl "furthermore", sl "get", sl "gets", sl "getting", sl "go", 
   sl "goes", sl "going", sl "gone", sl "good", sl "got", sl "gotten", sl "had", sl "half", 
   sl "has", sl "have", sl "he", sl "hence", sl "her", sl "here", sl "hers", sl "herself", 
   sl "high", sl "him", sl "himself", sl "his", sl "how", sl "however", sl "i", sl "ie", sl "if", 
   sl "in", sl "include", sl "included", sl "includes", sl "including", sl "inside", 
   sl "instead", sl "into", sl "is", sl "it", sl "its", sl "itself", sl "just", sl "keep", 
   sl "keeping", sl "keeps", sl "kept", sl "kindly", sl "knew", sl "know", sl "knowing", 
   sl "known", sl "knows", sl "later", sl "let", sl "lets", sl "letting", sl "listed", 
   sl "listing", sl "lists", sl "ll", sl "look", sl "looked", sl "looking", sl "looks", sl "low", 
   sl "m", sl "made", sl "main", sl "major", sl "make", sl "makes", sl "making", sl "may", 
   sl "me", sl "meanwhile", sl "might", sl "minor", sl "monthly", sl "more", sl "moreover", 
   sl "most", sl "must", sl "my", sl "myself", sl "near", sl "need", sl "needed", sl "needing", 
   sl "needs", sl "neither", sl "never", sl "nevertheless", sl "no", sl "nobody", sl "none", 
   sl "nonetheless", sl "nor", sl "not", sl "nothing", sl "now", sl "nowhere", sl "of", sl "off", 
   sl "often", sl "on", sl "once", sl "only", sl "or", sl "other", sl "otherwise", sl "ought", 
   sl "our", sl "ours", sl "ourselves", sl "out", sl "outside", sl "over", sl "own", sl "per", 
   sl "please", sl "plenty", sl "put", sl "puts", sl "putting", sl "rarely", sl "re", 
   sl "recently", sl "refer", sl "reference", sl "referred", sl "referring", sl "regarding", 
   sl "relate", sl "related", sl "relating", sl "s", sl "said", sl "same", sl "say", sl "saying", 
   sl "says", sl "seem", sl "seemed", sl "seeming", sl "seems", sl "several", sl "shall", 
   sl "she", sl "should", sl "small", sl "so", sl "some", sl "somebody", sl "someone", 
   sl "something", sl "sometimes", sl "somewhere", sl "soon", sl "stated", sl "states", 
   sl "stating", sl "such", sl "t", sl "take", sl "taken", sl "takes", sl "taking", sl "than", 
   sl "that", sl "the", sl "their", sl "theirs", sl "them", sl "themselves", sl "then", 
   sl "there", sl "therefore", sl "these", sl "they", sl "think", sl "thinking", sl "thinks", 
   sl "this", sl "those", sl "though", sl "thought", sl "through", sl "throughout", sl "thus", 
   sl "to", sl "today", sl "tomorrow", sl "too", sl "took", sl "toward", sl "towards", 
   sl "tried", sl "tries", sl "try", sl "trying", sl "under", sl "unless", sl "until", sl "up", 
   sl "upon", sl "us", sl "use", sl "used", sl "uses", sl "using", sl "usually", sl "various", 
   sl "ve", sl "versus", sl "very", sl "via", sl "viz", sl "want", sl "wanted", sl "wanting", 
   sl "wants", sl "was", sl "we", sl "weekly", sl "went", sl "were", sl "what", sl "when", 
   sl "whenever", sl "where", sl "whereas", sl "whereby", sl "wherein", sl "whereupon", 
   sl "wherever", sl "while", sl "whole", sl "why", sl "will", sl "with", sl "within", 
   sl "without", sl "would", sl "yearly", sl "yesterday", sl "you", sl "your", sl "yours", 
   sl "yourself", sl "yourselves"]

/-- Steps 2A–2C of `FASAEngine.search`: lower-case the query, replace
every punctuation character by a space (each replacement target is a
space, so the source's sequential `str.replace` chain acts pointwise),
split on whitespace and drop stop words. -/
def cleanedTerms (q : List Char) : List (List Char) :=
  (splitWs ((pyLower q).map (fun c => if punctuation.contains c then ' ' else c))).filter
    (fun t => ! stopWords.contains t)

/-- Regex word characters (`\w` over ASCII). -/
def isWordChar (c : Char) : Bool := isAlphaChar c || isDigitChar c || c = '_'

/-- One alternative of `\b(t1|t2|...)\b` matching at offset `i` of
`text` (case-insensitive; the cleaned terms are lower-case and free of
punctuation, so `re.escape` is the identity on them). -/
def matchTermAt (t text : List Char) (i : Nat) : Bool :=
  decide (i + t.length ≤ text.length) &&
  pyLower ((text.drop i).take t.length) = t &&
  (decide (i = 0) || ! isWordChar (text.getD (i - 1) ' ')) &&
  (decide (i + t.length = text.length) || ! isWordChar (text.getD (i + t.length) ' '))

/-- The first alternative (in pattern order) matching at offset `i`. -/
def anyTermAt (terms : List (List Char)) (text : List Char) (i : Nat) :
    Option (List Char) :=
  terms.find? (fun t => matchTermAt t text i)

/-- `highlight_pattern.search`: does any term occur as a whole word? -/
def hasTermMatch (terms : List (List Char)) (text : List Char) : Bool :=
  (List.range (text.length + 1)).any (fun i => (anyTermAt terms text i).isSome)

/-- `highlight_pattern.finditer`: the non-overlapping leftmost matches,
as `(start, end)` offsets (fuel-indexed scanner). -/
def findMatchesF : Nat → List (List Char) → List Char → Nat → List (Nat × Nat)
  | 0, _, _, _ => []
  | fuel + 1, terms, text, i =>
    if text.length ≤ i then []
    else
      match anyTermAt terms text i with
      | some t => (i, i + t.length) :: findMatchesF fuel terms text (i + t.length)
      | none => findMatchesF fuel terms text (i + 1)

def findMatches (terms : List (List Char)) (text : List Char) : List (Nat × Nat) :=
  findMatchesF (text.length + 1) terms text 0

/-- Does `needle` occur as a contiguous substring (`in` on `str`)? -/
def containsSub (needle hay : List Char) : Bool :=
  (List.range (hay.length + 1)).any (fun i => (hay.drop i).take needle.length = needle)

/-- The snippet-source text: when the scanned text carries a
`"Source:"` marker, everything after the first newline
(`split("\n", 1)[1]`), otherwise the text unchanged. -/
def cleanSnippetText (ts : List Char) : List Char :=
  if containsSub (sl "Source:") ts then
    match ts.dropWhile (fun c => ¬ c = '\n') with
    | _ :: rest => rest
    | [] => ts
  else ts

/-- One formatted snippet: 60 characters of context on either side of
the match, newlines flattened to spaces, bullet and page label as in
`f"• (Pg {page_label}) ...{snippet}..."`. -/
def mkSnippet (cleanText page : List Char) (se : Nat × Nat) : List Char :=
  sl "• (Pg " ++ page ++ sl ") ..." ++
    (((cleanText.drop (se.1 - 60)).take (min cleanText.length (se.2 + 60) - (se.1 - 60))).map
      (fun c => if c = '\n' then ' ' else c)) ++ sl "..."

/-- The snippet loop: only entered while the group holds fewer than 3
snippets; each match appends one snippet and the loop breaks at 3. -/
def addSnippets (snips : List (List Char)) (terms : List (List Char))
    (cleanText page : List Char) : List (List Char) :=
  if snips.length < 3 then
    snips ++ ((findMatches terms cleanText).map (mkSnippet cleanText page)).take
      (3 - snips.length)
  else snips

/-- One per-document group of `sop_grouping`. -/
structure SGroup where
  fileName : List Char
  highestScore : ℚ
  matchCount : Nat
  snippets : List (List Char)
deriving DecidableEq, Repr

/-- `sop_grouping[title]` (Python dicts preserve insertion order, so
the grouping is an association list). -/
def lookupAssoc (l : List (List Char × SGroup)) (k : List Char) : Option SGroup :=
  match l.find? (fun kv => kv.1 == k) with
  | some kv => some kv.2
  | none => none

/-- In-place update of the entry for key `k`. -/
def setAssoc : List (List Char × SGroup) → List Char → SGroup → List (List Char × SGroup)
  | [], _, _ => []
  | kv :: rest, k, g => if kv.1 = k then (k, g) :: rest else kv :: setAssoc rest k g

/-- The body of `search`'s candidate loop for one node: skip unless at
least one term occurs as a whole word (OR semantics); create the
group on first sight with the node's score as `highest_score`
(candidates arrive ranked, so this is never updated afterwards), bump
`match_count`, and extend the snippets (cap 3). -/
def groupStep (terms : List (List Char)) (acc : List (List Char × SGroup)) (c : Cand) :
    List (List Char × SGroup) :=
  if hasTermMatch terms (c.originalText.getD c.text) then
    match lookupAssoc acc (c.sopTitle.getD (sl "Unknown SOP")) with
    | none =>
      acc ++ [(c.sopTitle.getD (sl "Unknown SOP"),
        ⟨c.fileName.getD (sl "Unknown File"), c.score, 1,
          addSnippets [] terms (cleanSnippetText (c.originalText.getD c.text))
            (c.pageLabel.getD (sl "?"))⟩)]
    | some g =>
      setAssoc acc (c.sopTitle.getD (sl "Unknown SOP"))
        ⟨g.fileName, g.highestScore, g.matchCount + 1,
          addSnippets g.snippets terms (cleanSnippetText (c.originalText.getD c.text))
            (c.pageLabel.getD (sl "?"))⟩
  else acc

def searchGroups (terms : List (List Char)) (cands : List Cand) :
    List (List Char × SGroup) :=
  cands.foldl (groupStep terms) []

/-- Python `round(x, 3)` (round half to even), exactly on ℚ. -/
def roundHalfEven (q : ℚ) : ℤ :=
  if q - ⌊q⌋ < 1 / 2 then ⌊q⌋
  else if 1 / 2 < q - ⌊q⌋ then ⌊q⌋ + 1
  else if Even ⌊q⌋ then ⌊q⌋ else ⌊q⌋ + 1

def round3 (q : ℚ) : ℚ := (roundHalfEven (q * 1000) : ℚ) / 1000

/-- One row of `search`'s output (`SOP Title`, `File Name`,
`Relevance`, `Matches Found`, `Snippets` joined by newlines). -/
structure SResult where
  sopTitle : List Char
  fileName : List Char
  relevance : ℚ
  matchesFound : Nat
  snippets : List Char
deriving DecidableEq, Repr

def joinNl : List (List Char) → List Char
  | [] => []
  | [s] => s
  | s :: rest => s ++ '\n' :: joinNl rest

def mkResults (groups : List (List Char × SGroup)) : List SResult :=
  groups.map fun kv =>
    ⟨kv.1, kv.2.fileName, round3 kv.2.highestScore, kv.2.matchCount, joinNl kv.2.snippets⟩

/-- Stable insertion step of `list.sort(key=..., reverse=True)`:
a later element passes an earlier one only on a strictly greater key. -/
def insertDescBy {α : Type} (key : α → ℚ) (x : α) : List α → List α
  | [] => [x]
  | y :: ys => if key x < key y then y :: insertDescBy key x ys else x :: y :: ys

/-- Python's stable sort, descending by `key`. -/
def sortDescBy {α : Type} (key : α → ℚ) : List α → List α
  | [] => []
  | x :: xs => insertDescBy key x (sortDescBy key xs)

def searchFromCandidates (terms : List (List Char)) (cands : List Cand) : List SResult :=
  sortDescBy SResult.relevance (mkResults (searchGroups terms cands))

/-- `FASAEngine.search`: empty or whitespace-only query returns `[]`
before anything else; a query whose terms are all stop words returns
`[]` without calling the retriever; otherwise the broad (sparse,
`Active`-filtered, top-100) retriever — an external collaborator,
passed here as the function `retrieve` — supplies the candidates and
the grouping/snippet/sort pipeline produces the rows. -/
def searchFASA (retrieve : List (List Char) → List Cand) (q : List Char) : List SResult :=
  if pyStrip q = [] then []
  else if cleanedTerms q = [] then []
  else searchFromCandidates (cleanedTerms q) (retrieve (cleanedTerms q))

/-- What the focused query engine hands back: the synthesized answer
text and the post-processed source nodes. -/
structure EngResp where
  answerText : List Char
  sourceNodes : List Cand
deriving Repr

/-- One entry of `query`'s `sources` list. -/
structure SourceInfo where
  sopTitle : List Char
  fileName : List Char
  page : List Char
  score : ℚ
deriving DecidableEq, Repr

/-- `FASAEngine.query`: empty or whitespace-only query short-circuits
to the fixed answer with no sources, for every engine; otherwise the
query is lower-cased, the engine runs, and each source node's metadata
is extracted (scores rounded to 3 digits). -/
def queryFASA (runEngine : List Char → EngResp) (q : List Char) :
    List Char × List SourceInfo :=
  if pyStrip q = [] then (sl "Please enter a valid query.", [])
  else
    ((runEngine (pyLower q)).answerText,
      (runEngine (pyLower q)).sourceNodes.map fun c =>
        ⟨c.sopTitle.getD (sl "Unknown SOP"), c.fileName.getD (sl "N/A"),
          c.pageLabel.getD (sl "N/A"), round3 c.score⟩)

/-- Modelled from the spec: the external hybrid retriever built by
`_build_engine` (`as_retriever` with `similarity_top_k=7`,
`vector_store_query_mode="hybrid"`, and the mandatory
`MetadataFilters(status="Active")`): of the stored candidates, keep
only `Active` ones and return the top 7 by score.  The per-query
hybrid scores are carried on the candidates themselves. -/
def hybridRetrieveActive (store : List Cand) (k : Nat) : List Cand :=
  (sortDescBy Cand.score (store.filter (fun c => c.status = PStatus.Active))).take k

/-- `SimilarityPostprocessor`: with a configured `similarity_cutoff`
every node scoring below it is dropped; with `None` nothing is. -/
def simPostprocess (cutoff : Option ℚ) (nodes : List Cand) : List Cand :=
  match cutoff with
  | none => nodes
  | some c => nodes.filter (fun n => decide (c ≤ n.score))

/-- The `similarity_cutoff` the built engine actually runs with.
`_build_engine` writes `SimilarityPostprocessor(cutoff=0.05)`, but the
field is named `similarity_cutoff` (the repository's own
`reranker.py` passes it correctly); the pydantic model underlying
LlamaIndex components ignores unknown constructor keywords, so the
field keeps its default `None` and no relevance floor is applied. -/
def builtEngineCutoff : Option ℚ := none

/-- `MetadataTextRestorer`: swap each node's text for its
`original_text` metadata when present. -/
def restoreText (nodes : List Cand) : List Cand :=
  nodes.map fun n =>
    match n.originalText with
    | some ot => { n with text := ot }
    | none => n

/-- The assembled focused engine of `_build_engine`: retrieve (top-7,
hybrid, `Active`-only), then the postprocessors in order
(`cutoff_processor`, `text_restorer`); the synthesized answer text is
out of scope and left empty. -/
def builtEngine (store : List Cand) : List Char → EngResp := fun _ =>
  ⟨[], restoreText (simPostprocess builtEngineCutoff (hybridRetrieveActive store 7))⟩

/-- Failing store for claim C4: one `Active` passage scoring 0.01 for
the query and one `Inactive` passage scoring 0.9. -/
def c4Store : List Cand :=
  [⟨sl "low active passage", some (sl "Low Active Passage"), some (sl "SOP A"),
      some (sl "a.pdf"), some (sl "Page 2"), PStatus.Active, 1 / 100⟩,
    ⟨sl "high inactive passage", some (sl "High Inactive Passage"), some (sl "SOP B"),
      some (sl "b.pdf"), some (sl "Page 3"), PStatus.Inactive, 9 / 10⟩]

/-- Loop invariant of `search`'s grouping fold, after the candidates
in `processed` have been consumed: every group holds at most 3
snippets; every group's `highest_score` is the score of a matching
processed candidate of that title which dominates every other matching
processed candidate of the title; and every matching processed
candidate already has a group. -/
def searchInv (terms : List (List Char)) (acc : List (List Char × SGroup))
    (processed : List Cand) : Prop :=
  (∀ kv ∈ acc, kv.2.snippets.length ≤ 3) ∧
  (∀ kv ∈ acc, ∃ c ∈ processed,
      c.sopTitle.getD (sl "Unknown SOP") = kv.1 ∧
      hasTermMatch terms (c.originalText.getD c.text) = true ∧
      kv.2.highestScore = c.score ∧
      ∀ c' ∈ processed, c'.sopTitle.getD (sl "Unknown SOP") = kv.1 →
        hasTermMatch terms (c'.originalText.getD c'.text) = true →
        c'.score ≤ c.score) ∧
  (∀ c ∈ processed, hasTermMatch terms (c.originalText.getD c.text) = true →
      (lookupAssoc acc (c.sopTitle.getD (sl "Unknown SOP"))).isSome = true)

/-- A small ranked candidate list for the keyword-discovery witness. -/
def c9Cands : List Cand :=
  [⟨sl "wear a glove when cleaning.", some (sl "Wear a glove when cleaning."),
      some (sl "SOP A"), some (sl "a.pdf"), some (sl "Page 2"), PStatus.Active, 8⟩,
    ⟨sl "no relevant content here.", some (sl "No relevant content here."),
      some (sl "SOP B"), some (sl "b.pdf"), some (sl "Page 3"), PStatus.Active, 7⟩,
    ⟨sl "second glove passage.", some (sl "Second glove passage."),
      some (sl "SOP A"), some (sl "a.pdf"), some (sl "Page 4"), PStatus.Active, 6⟩]

/-! ## Theorems: write-side store logic -/

theorem keyActive_setDbStatusInactive (s : List Point) (dn t : List Char) :
    ∀ r ∈ setDbStatusInactive s dn t, isKeyActive dn t r = false := by
  intro r hr
  simp only [setDbStatusInactive, List.mem_map] at hr
  obtain ⟨p, _, rfl⟩ := hr
  by_cases h : p.docNum = some dn ∧ p.title = t
  · simp [h, isKeyActive]
  · simp only [if_neg h, isKeyActive]
    simp only [not_and] at h
    by_cases h1 : p.docNum = some dn
    · simp [h1, h h1]
    · simp [h1]

theorem insertNodes_mkBatch_cons (dn t : List Char) (hdn : dn ≠ []) (s : List Point)
    (v : ℚ) (x : List Char) (ts : List (List Char)) :
    insertNodes s (mkBatch dn t v (x :: ts)) =
      (resolveVersionStatus s dn t v).2 ++
        (mkBatch dn t v (x :: ts)).map
          (fun p => { p with status := (resolveVersionStatus s dn t v).1 }) := by
  simp [insertNodes, mkBatch, hdn]

theorem resolveVersionStatus_of_head (dn t : List Char) (s : List Point) (v M : ℚ)
    (q : Point) (qs : List Point)
    (hq : s.filter (isKeyActive dn t) = q :: qs) (hqv : q.version = M) :
    resolveVersionStatus s dn t v =
      if M < v then (PStatus.Active, setDbStatusInactive s dn t)
      else if v < M then (PStatus.Inactive, s)
      else (PStatus.Active, s) := by
  simp [resolveVersionStatus, hq, hqv]

theorem isKeyActive_stamp (dn t y : List Char) (v : ℚ) (st' : PStatus) :
    isKeyActive dn t
      { docNum := some dn, title := t, version := v, status := st', text := y } =
      (st' = PStatus.Active : Bool) := by
  simp [isKeyActive]

theorem keyActiveInv_insert (dn t : List Char) (hdn : dn ≠ []) (s : List Point) (M v : ℚ)
    (ts : List (List Char)) (hts : ts ≠ []) (h : keyActiveInv dn t s M) :
    keyActiveInv dn t (insertNodes s (mkBatch dn t v ts)) (max M v) := by
  obtain ⟨x, ts', rfl⟩ := List.exists_cons_of_ne_nil hts
  obtain ⟨hall, p₀, hp₀s, hp₀a, hp₀v⟩ := h
  have hmem : p₀ ∈ s.filter (isKeyActive dn t) := List.mem_filter.mpr ⟨hp₀s, hp₀a⟩
  obtain ⟨q, qs, hq⟩ := List.exists_cons_of_ne_nil (List.ne_nil_of_mem hmem)
  have hqs : q ∈ s ∧ isKeyActive dn t q = true := by
    have : q ∈ s.filter (isKeyActive dn t) := by rw [hq]; exact List.mem_cons_self _ _
    exact List.mem_filter.mp this
  have hqv : q.version = M := hall q hqs.1 hqs.2
  rw [insertNodes_mkBatch_cons dn t hdn, resolveVersionStatus_of_head dn t s v M q qs hq hqv]
  rcases lt_trichotomy M v with hlt | heq | hgt
  · rw [if_pos hlt, max_eq_right hlt.le]
    constructor
    · intro r hr hra
      rcases List.mem_append.mp hr with hr1 | hr2
      · exact absurd hra (by simp [keyActive_setDbStatusInactive s dn t r hr1])
      · simp only [mkBatch, List.map_map, List.mem_map] at hr2
        obtain ⟨y, _, rfl⟩ := hr2
        rfl
    · refine ⟨⟨some dn, t, v, PStatus.Active, x⟩, ?_, ?_, rfl⟩
      · apply List.mem_append.mpr
        right
        simp [mkBatch]
      · simp [isKeyActive]
  · rw [if_neg (by simp [heq]), if_neg (by simp [heq]), max_eq_right heq.le]
    constructor
    · intro r hr hra
      rcases List.mem_append.mp hr with hr1 | hr2
      · rw [hall r hr1 hra, heq]
      · simp only [mkBatch, List.map_map, List.mem_map] at hr2
        obtain ⟨y, _, rfl⟩ := hr2
        rfl
    · exact ⟨p₀, List.mem_append.mpr (Or.inl hp₀s), hp₀a, by rw [hp₀v, heq]⟩
  · rw [if_neg (not_lt.mpr hgt.le), if_pos hgt, max_eq_left hgt.le]
    constructor
    · intro r hr hra
      rcases List.mem_append.mp hr with hr1 | hr2
      · exact hall r hr1 hra
      · simp only [mkBatch, List.map_map, List.mem_map] at hr2
        obtain ⟨y, _, rfl⟩ := hr2
        exact absurd hra (by simp [isKeyActive])
    · exact ⟨p₀, List.mem_append.mpr (Or.inl hp₀s), hp₀a, hp₀v⟩

theorem keyActiveInv_first (dn t : List Char) (hdn : dn ≠ []) (s0 : List Point)
    (h0 : ∀ p ∈ s0, isKeyActive dn t p = false) (v : ℚ) (ts : List (List Char))
    (hts : ts ≠ []) :
    keyActiveInv dn t (insertNodes s0 (mkBatch dn t v ts)) v := by
  obtain ⟨x, ts', rfl⟩ := List.exists_cons_of_ne_nil hts
  have hfilter : s0.filter (isKeyActive dn t) = [] := by
    apply List.filter_eq_nil_iff.mpr
    intro p hp
    simp [h0 p hp]
  have hres : resolveVersionStatus s0 dn t v = (PStatus.Active, s0) := by
    simp [resolveVersionStatus, hfilter]
  rw [insertNodes_mkBatch_cons dn t hdn, hres]
  constructor
  · intro r hr hra
    rcases List.mem_append.mp hr with hr1 | hr2
    · exact absurd hra (by simp [h0 r hr1])
    · simp only [mkBatch, List.map_map, List.mem_map] at hr2
      obtain ⟨y, _, rfl⟩ := hr2
      rfl
  · refine ⟨⟨some dn, t, v, PStatus.Active, x⟩, ?_, ?_, rfl⟩
    · apply List.mem_append.mpr
      right
      simp [mkBatch]
    · simp [isKeyActive]

theorem keyActiveInv_ingestAll (dn t : List Char) (hdn : dn ≠ []) :
    ∀ (specs : List (ℚ × List (List Char))) (s : List Point) (M : ℚ),
      keyActiveInv dn t s M → (∀ sp ∈ specs, sp.2 ≠ []) →
      keyActiveInv dn t (ingestAll dn t s specs) (specs.foldl (fun m q => max m q.1) M) := by
  intro specs
  induction specs with
  | nil => intro s M h _; simpa [ingestAll] using h
  | cons sp rest ih =>
    intro s M h hb
    have hstep := keyActiveInv_insert dn t hdn s M sp.1 sp.2
      (hb sp (List.mem_cons_self _ _)) h
    have := ih (insertNodes s (mkBatch dn t sp.1 sp.2)) (max M sp.1) hstep
      (fun q hq => hb q (List.mem_cons_of_mem _ hq))
    simpa [ingestAll] using this

/-- **C1** (Monotonic visibility).  For every sequence of ingest
operations of revisions of one logical document (same `document_number`
and `sop_title` key, batches nonempty, truthy document number), run
against a store holding no `Active` passage of that key, after the
inserts complete every `Active` passage of the key carries the highest
`version_numeric` ever ingested, and at least one such passage exists —
in particular a late-arriving older revision never displaces the
current `Active` revision. -/
theorem C1_monotonic_visibility (dn t : List Char) (s0 : List Point)
    (specs : List (ℚ × List (List Char)))
    (hdn : dn ≠ []) (h0 : ∀ p ∈ s0, isKeyActive dn t p = false)
    (hne : specs ≠ []) (hb : ∀ sp ∈ specs, sp.2 ≠ []) :
    (∀ p ∈ ingestAll dn t s0 specs, isKeyActive dn t p = true →
        p.version = maxSpecVer specs) ∧
    (∃ p ∈ ingestAll dn t s0 specs, isKeyActive dn t p = true ∧
        p.version = maxSpecVer specs) := by
  obtain ⟨sp, rest, rfl⟩ := List.exists_cons_of_ne_nil hne
  have h1 := keyActiveInv_first dn t hdn s0 h0 sp.1 sp.2 (hb sp (List.mem_cons_self _ _))
  have h2 := keyActiveInv_ingestAll dn t hdn rest
    (insertNodes s0 (mkBatch dn t sp.1 sp.2)) sp.1 h1
    (fun q hq => hb q (List.mem_cons_of_mem _ hq))
  have hfold : ingestAll dn t s0 (sp :: rest) =
      ingestAll dn t (insertNodes s0 (mkBatch dn t sp.1 sp.2)) rest := by
    simp [ingestAll]
  rw [hfold]
  simpa [keyActiveInv, maxSpecVer] using h2

/-- Witness for C1: revisions 6, 7 and then (late-arriving) 6 again;
only version 7 ends up `Active`. -/
theorem C1_monotonic_visibility_witness :
    ((∀ p ∈ ingestAll (sl "D1") (sl "SOP X") []
          [(6, [sl "a"]), (7, [sl "b"]), (6, [sl "c"])],
        isKeyActive (sl "D1") (sl "SOP X") p = true →
        p.version = maxSpecVer [(6, [sl "a"]), (7, [sl "b"]), (6, [sl "c"])]) ∧
     (∃ p ∈ ingestAll (sl "D1") (sl "SOP X") []
          [(6, [sl "a"]), (7, [sl "b"]), (6, [sl "c"])],
        isKeyActive (sl "D1") (sl "SOP X") p = true ∧
        p.version = maxSpecVer [(6, [sl "a"]), (7, [sl "b"]), (6, [sl "c"])])) ∧
    maxSpecVer [(6, [sl "a"]), (7, [sl "b"]), (6, [sl "c"])] = 7 :=
  ⟨C1_monotonic_visibility (sl "D1") (sl "SOP X") []
      [(6, [sl "a"]), (7, [sl "b"]), (6, [sl "c"])]
      (by decide) (by simp) (by simp) (by decide),
   by decide⟩

/-- **C2** (Conflict arbitration decision).  For an incoming batch with
numeric version `n` keyed by document number + title: with no `Active`
passage for the key the decision is `Active`; otherwise, `E` being the
stored `Active` version, the decision is `Active` with every stored
passage of the key flipped to `Inactive` when `n > E`, `Inactive` with
no mutation when `n < E`, and `Active` without retiring anything when
`n = E`. -/
theorem C2_conflict_arbitration (dn t : List Char) (s : List Point) (n E : ℚ)
    (hE : ∀ p ∈ s, isKeyActive dn t p = true → p.version = E) :
    ((∀ p ∈ s, isKeyActive dn t p = false) →
        resolveVersionStatus s dn t n = (PStatus.Active, s)) ∧
    ((∃ p ∈ s, isKeyActive dn t p = true) →
      (E < n → resolveVersionStatus s dn t n =
          (PStatus.Active, setDbStatusInactive s dn t) ∧
        ∀ r ∈ setDbStatusInactive s dn t, isKeyActive dn t r = false) ∧
      (n < E → resolveVersionStatus s dn t n = (PStatus.Inactive, s)) ∧
      (n = E → resolveVersionStatus s dn t n = (PStatus.Active, s))) := by
  constructor
  · intro h0
    have hfilter : s.filter (isKeyActive dn t) = [] :=
      List.filter_eq_nil_iff.mpr (fun p hp => by simp [h0 p hp])
    simp [resolveVersionStatus, hfilter]
  · rintro ⟨p₀, hp₀s, hp₀a⟩
    have hmem : p₀ ∈ s.filter (isKeyActive dn t) := List.mem_filter.mpr ⟨hp₀s, hp₀a⟩
    obtain ⟨q, qs, hq⟩ := List.exists_cons_of_ne_nil (List.ne_nil_of_mem hmem)
    have hqmem : q ∈ s ∧ isKeyActive dn t q = true := by
      have : q ∈ s.filter (isKeyActive dn t) := by rw [hq]; exact List.mem_cons_self _ _
      exact List.mem_filter.mp this
    have hqv : q.version = E := hE q hqmem.1 hqmem.2
    rw [resolveVersionStatus_of_head dn t s n E q qs hq hqv]
    refine ⟨?_, ?_, ?_⟩
    · intro hlt
      rw [if_pos hlt]
      exact ⟨rfl, keyActive_setDbStatusInactive s dn t⟩
    · intro hlt
      rw [if_neg (not_lt.mpr hlt.le), if_pos hlt]
    · intro heq
      simp [heq]

/-- Witness for C2: a store holding version 6 `Active`, incoming
version 7: the branch hypotheses are all dischargeable. -/
theorem C2_conflict_arbitration_witness :
    ((∀ p ∈ [Point.mk (some (sl "D1")) (sl "SOP X") 6 PStatus.Active (sl "a")],
        isKeyActive (sl "D1") (sl "SOP X") p = false) →
      resolveVersionStatus [Point.mk (some (sl "D1")) (sl "SOP X") 6 PStatus.Active (sl "a")]
        (sl "D1") (sl "SOP X") 7 =
        (PStatus.Active, [Point.mk (some (sl "D1")) (sl "SOP X") 6 PStatus.Active (sl "a")])) ∧
    ((∃ p ∈ [Point.mk (some (sl "D1")) (sl "SOP X") 6 PStatus.Active (sl "a")],
        isKeyActive (sl "D1") (sl "SOP X") p = true) →
      ((6 : ℚ) < 7 →
        resolveVersionStatus [Point.mk (some (sl "D1")) (sl "SOP X") 6 PStatus.Active (sl "a")]
          (sl "D1") (sl "SOP X") 7 =
          (PStatus.Active,
            setDbStatusInactive
              [Point.mk (some (sl "D1")) (sl "SOP X") 6 PStatus.Active (sl "a")]
              (sl "D1") (sl "SOP X")) ∧
        ∀ r ∈ setDbStatusInactive
            [Point.mk (some (sl "D1")) (sl "SOP X") 6 PStatus.Active (sl "a")]
            (sl "D1") (sl "SOP X"),
          isKeyActive (sl "D1") (sl "SOP X") r = false) ∧
      ((7 : ℚ) < 6 →
        resolveVersionStatus [Point.mk (some (sl "D1")) (sl "SOP X") 6 PStatus.Active (sl "a")]
          (sl "D1") (sl "SOP X") 7 =
          (PStatus.Inactive,
            [Point.mk (some (sl "D1")) (sl "SOP X") 6 PStatus.Active (sl "a")])) ∧
      ((7 : ℚ) = 6 →
        resolveVersionStatus [Point.mk (some (sl "D1")) (sl "SOP X") 6 PStatus.Active (sl "a")]
          (sl "D1") (sl "SOP X") 7 =
          (PStatus.Active,
            [Point.mk (some (sl "D1")) (sl "SOP X") 6 PStatus.Active (sl "a")]))) :=
  C2_conflict_arbitration (sl "D1") (sl "SOP X")
    [Point.mk (some (sl "D1")) (sl "SOP X") 6 PStatus.Active (sl "a")] 7 6 (by decide)

/-- **C3** (idempotent re-ingestion — refuted on the code; code bug).
`insert_nodes` never deletes or replaces the stored passages of a
title+revision (chunk node ids are fresh uuids on every run, so the
store upsert appends new points): re-running the same file+revision
batch hits the `N == E` tie branch, is stamped `Active` and appended,
leaving two copies of every passage for that title+revision — the
stored state after the second run differs from the state after the
first, contradicting the invariant that old passages are fully
replaced, not appended (and contradicting the repository's own
comments: "TIE: Same version. Overwrite", "The db_manager handles the
'Delete Old Version -> Insert New' logic"). -/
theorem C3_reingest_appends_duplicates :
    insertNodes (insertNodes [] (mkBatch (sl "D1") (sl "SOP X") 1 [sl "chunk"]))
        (mkBatch (sl "D1") (sl "SOP X") 1 [sl "chunk"]) ≠
      insertNodes [] (mkBatch (sl "D1") (sl "SOP X") 1 [sl "chunk"]) ∧
    (insertNodes [] (mkBatch (sl "D1") (sl "SOP X") 1 [sl "chunk"])).length = 1 ∧
    (insertNodes (insertNodes [] (mkBatch (sl "D1") (sl "SOP X") 1 [sl "chunk"]))
        (mkBatch (sl "D1") (sl "SOP X") 1 [sl "chunk"])).length = 2 ∧
    ∀ p ∈ insertNodes (insertNodes [] (mkBatch (sl "D1") (sl "SOP X") 1 [sl "chunk"]))
        (mkBatch (sl "D1") (sl "SOP X") 1 [sl "chunk"]),
      p.title = sl "SOP X" ∧ p.version = 1 ∧ p.text = sl "chunk" ∧
        p.status = PStatus.Active := by
  decide

/-- **C5 counterexample**.  A batch whose metadata carries no
`document_number` is stamped `Active` with no existence check at all:
ingesting title "SOP X" version 5 (no document number) and then version
3 (no document number) leaves passages of *both* versions `Active` —
the second insert was given `Active` although an `Active` newer
revision of the same title already existed, so `Active` was not
conditioned on a successful existence check. -/
theorem C5_counterexample :
    (∃ p ∈ insertNodes (insertNodes [] [Point.mk none (sl "SOP X") 5 PStatus.Active (sl "a")])
        [Point.mk none (sl "SOP X") 3 PStatus.Active (sl "b")],
      p.title = sl "SOP X" ∧ p.version = 3 ∧ p.status = PStatus.Active) ∧
    (∃ p ∈ insertNodes (insertNodes [] [Point.mk none (sl "SOP X") 5 PStatus.Active (sl "a")])
        [Point.mk none (sl "SOP X") 3 PStatus.Active (sl "b")],
      p.title = sl "SOP X" ∧ p.version = 5 ∧ p.status = PStatus.Active) := by
  decide

/-- **C5 amended**.  For every insert of a batch whose first node has a
truthy (non-empty) `document_number`, the batch's status is exactly the
arbitration result of the existence check against the store, and it is
`Active` only when the check found no `Active` passage of the key or
the incoming version is at least the stored `Active` version; when
`document_number` is missing the code logs a warning and defaults to
`Active` with no store check. -/
theorem C5_active_implies_checked (dn t : List Char) (hdn : dn ≠ []) (s : List Point)
    (n E : ℚ) (x : List Char) (ts : List (List Char))
    (hE : ∀ p ∈ s, isKeyActive dn t p = true → p.version = E) :
    insertNodes s (mkBatch dn t n (x :: ts)) =
      (resolveVersionStatus s dn t n).2 ++
        (mkBatch dn t n (x :: ts)).map
          (fun p => { p with status := (resolveVersionStatus s dn t n).1 }) ∧
    ((resolveVersionStatus s dn t n).1 = PStatus.Active →
      (∀ p ∈ s, isKeyActive dn t p = false) ∨ E ≤ n) := by
  refine ⟨insertNodes_mkBatch_cons dn t hdn s n x ts, ?_⟩
  intro hA
  rcases hfe : s.filter (isKeyActive dn t) with _ | ⟨q, qs⟩
  · left
    intro p hp
    have := List.filter_eq_nil_iff.mp hfe p hp
    simpa using this
  · right
    have hqmem : q ∈ s ∧ isKeyActive dn t q = true := by
      have : q ∈ s.filter (isKeyActive dn t) := by rw [hfe]; exact List.mem_cons_self _ _
      exact List.mem_filter.mp this
    have hqv : q.version = E := hE q hqmem.1 hqmem.2
    by_contra hcon
    push_neg at hcon
    have hres := resolveVersionStatus_of_head dn t s n E q qs hfe hqv
    rw [if_neg (not_lt.mpr hcon.le), if_pos hcon] at hres
    rw [hres] at hA
    exact PStatus.noConfusion hA

/-- Witness for C5's amended theorem at a concrete store and batch. -/
theorem C5_active_implies_checked_witness :
    (insertNodes [Point.mk (some (sl "D1")) (sl "SOP X") 6 PStatus.Active (sl "a")]
        (mkBatch (sl "D1") (sl "SOP X") 7 [sl "b"]) =
      (resolveVersionStatus [Point.mk (some (sl "D1")) (sl "SOP X") 6 PStatus.Active (sl "a")]
          (sl "D1") (sl "SOP X") 7).2 ++
        (mkBatch (sl "D1") (sl "SOP X") 7 [sl "b"]).map
          (fun p => { p with status :=
            (resolveVersionStatus
              [Point.mk (some (sl "D1")) (sl "SOP X") 6 PStatus.Active (sl "a")]
              (sl "D1") (sl "SOP X") 7).1 }) ∧
    ((resolveVersionStatus [Point.mk (some (sl "D1")) (sl "SOP X") 6 PStatus.Active (sl "a")]
          (sl "D1") (sl "SOP X") 7).1 = PStatus.Active →
      (∀ p ∈ [Point.mk (some (sl "D1")) (sl "SOP X") 6 PStatus.Active (sl "a")],
          isKeyActive (sl "D1") (sl "SOP X") p = false) ∨ (6 : ℚ) ≤ 7)) :=
  C5_active_implies_checked (sl "D1") (sl "SOP X") (by decide)
    [Point.mk (some (sl "D1")) (sl "SOP X") 6 PStatus.Active (sl "a")] 7 6 (sl "b") []
    (by decide)

/-! ## Theorems: version extraction -/

theorem normalizeVersion_digits (s : List Char) (hne : s ≠ [])
    (hd : ∀ c ∈ s, isDigitChar c = true) :
    normalizeVersion s = (digitsVal s : ℚ) := by
  have hfil : stripNonNumDot s = s :=
    List.filter_eq_self.mpr (fun c hc => by simp [hd c hc])
  have hany : s.any isDigitChar = true := by
    obtain ⟨c, cs, rfl⟩ := List.exists_cons_of_ne_nil hne
    simp [hd c (List.mem_cons_self _ _)]
  have hcount : s.count '.' = 0 := by
    apply List.count_eq_zero.mpr
    intro hmem
    have := hd '.' hmem
    simp [isDigitChar] at this
  have hall : s.all (fun c => isDigitChar c || c = '.') = true := by
    apply List.all_eq_true.mpr
    intro c hc
    simp [hd c hc]
  have htake : s.takeWhile isDigitChar = s :=
    List.takeWhile_eq_self_iff.mpr hd
  unfold normalizeVersion
  rw [hfil]
  unfold pyFloatQ
  rw [hany, hcount, hall, htake]
  simp

theorem takeWhile_digits_dot (ip fp : List Char) (hip : ∀ c ∈ ip, isDigitChar c = true) :
    (ip ++ '.' :: fp).takeWhile isDigitChar = ip := by
  induction ip with
  | nil => simp [List.takeWhile_cons, isDigitChar]
  | cons c cs ih =>
    have hc := hip c (List.mem_cons_self _ _)
    simp only [List.cons_append, List.takeWhile_cons, hc, if_true]
    rw [ih (fun d hd => hip d (List.mem_cons_of_mem _ hd))]

theorem pyFloatQ_digit_dot (ip fp : List Char) (hip : ∀ c ∈ ip, isDigitChar c = true)
    (hfp : ∀ c ∈ fp, isDigitChar c = true) (hne : ip ≠ []) :
    pyFloatQ (ip ++ '.' :: fp) =
      some ((digitsVal ip : ℚ) + (digitsVal fp : ℚ) / 10 ^ fp.length) := by
  have hany : (ip ++ '.' :: fp).any isDigitChar = true := by
    obtain ⟨c, cs, rfl⟩ := List.exists_cons_of_ne_nil hne
    simp [hip c (List.mem_cons_self _ _)]
  have h1 : ip.count '.' = 0 :=
    List.count_eq_zero.mpr (fun h => by have := hip _ h; simp [isDigitChar] at this)
  have h2 : fp.count '.' = 0 :=
    List.count_eq_zero.mpr (fun h => by have := hfp _ h; simp [isDigitChar] at this)
  have hcount : (ip ++ '.' :: fp).count '.' ≤ 1 := by
    simp [List.count_append, h1, List.count_cons, h2]
  have hall : (ip ++ '.' :: fp).all (fun c => isDigitChar c || c = '.') = true := by
    apply List.all_eq_true.mpr
    intro c hc
    rcases List.mem_append.mp hc with h | h
    · simp [hip c h]
    · rcases List.mem_cons.mp h with h | h
      · simp [h]
      · simp [hfp c h]
  have htake : (ip ++ '.' :: fp).takeWhile isDigitChar = ip := takeWhile_digits_dot ip fp hip
  unfold pyFloatQ
  simp only [htake, List.drop_left, hany, hall, decide_eq_true_eq, Bool.true_and,
    Bool.and_true, hcount, decide_True, if_true]

theorem normalizeVersion_one_dot_zero : normalizeVersion (sl "1.0") = 1 := by
  have h : sl "1.0" = sl "1" ++ '.' :: sl "0" := by decide
  have hd : stripNonNumDot (sl "1" ++ '.' :: sl "0") = sl "1" ++ '.' :: sl "0" := by decide
  rw [h, normalizeVersion, hd, pyFloatQ_digit_dot (sl "1") (sl "0")
    (by decide) (by decide) (by decide)]
  rw [show digitsVal (sl "1") = 1 from by decide, show digitsVal (sl "0") = 0 from by decide,
    show (sl "0").length = 1 from by decide]
  norm_num

theorem normalizeVersion_two_dot_five : normalizeVersion (sl "2.5") = 5 / 2 := by
  have h : sl "2.5" = sl "2" ++ '.' :: sl "5" := by decide
  have hd : stripNonNumDot (sl "2" ++ '.' :: sl "5") = sl "2" ++ '.' :: sl "5" := by decide
  rw [h, normalizeVersion, hd, pyFloatQ_digit_dot (sl "2") (sl "5")
    (by decide) (by decide) (by decide)]
  rw [show digitsVal (sl "2") = 2 from by decide, show digitsVal (sl "5") = 5 from by decide,
    show (sl "5").length = 1 from by decide]
  norm_num

theorem extract_versionFloat (f : List Char) :
    (extractMetadata f).versionFloat =
      normalizeVersion ((extractMetadata f).versionOriginal) := by
  dsimp only [extractMetadata]

theorem normalizeVersion_one_two_three : normalizeVersion (sl "1.2.3") = 0 := by
  have hs : stripNonNumDot (sl "1.2.3") = sl "1.2.3" := by decide
  have hn : pyFloatQ (sl "1.2.3") = none := by decide
  rw [normalizeVersion, hs, hn]
  rfl

/-- **C8 counterexample**.  The filename `SOP_v1.2.3.pdf` carries an
explicit version marker whose captured numeric is `1.2.3`; Python's
`float("1.2.3")` raises, `_normalize_version` falls back to `0.0`, and
the resolved `version_float` ordering *disagrees* with human-expected
revision ordering: revision 1.2.3 (humanly newer than 1.0) gets
`version_float` 0, strictly below the 1.0 of `SOP_v1.0.pdf`. -/
theorem C8_counterexample :
    (extractMetadata (sl "SOP_v1.2.3.pdf")).versionOriginal = sl "1.2.3" ∧
    (extractMetadata (sl "SOP_v1.2.3.pdf")).versionFloat = 0 ∧
    (extractMetadata (sl "SOP_v1.0.pdf")).versionFloat = 1 ∧
    (extractMetadata (sl "SOP_v1.2.3.pdf")).versionFloat <
      (extractMetadata (sl "SOP_v1.0.pdf")).versionFloat := by
  have h1 : (extractMetadata (sl "SOP_v1.2.3.pdf")).versionOriginal = sl "1.2.3" := by decide
  have h2 : (extractMetadata (sl "SOP_v1.0.pdf")).versionOriginal = sl "1.0" := by decide
  have hf1 : (extractMetadata (sl "SOP_v1.2.3.pdf")).versionFloat = 0 := by
    rw [extract_versionFloat, h1, normalizeVersion_one_two_three]
  have hf2 : (extractMetadata (sl "SOP_v1.0.pdf")).versionFloat = 1 := by
    rw [extract_versionFloat, h2, normalizeVersion_one_dot_zero]
  refine ⟨h1, hf1, hf2, ?_⟩
  rw [hf1, hf2]
  norm_num

/-- **C8** (version extraction, amended).  `extract_metadata` captures
the explicit marker's numeric as the version; the explicit match takes
precedence over the implicit trailing 2–3-digit suffix, which takes
precedence over the default `"1.0"`; and the resulting `version_float`
ordering agrees with human-expected revision ordering whenever the
captured numerics are plain digit strings (`Rev07 > Rev06`) or
single-dot decimals (`v2.5 > v1.0`) — a captured numeric with two or
more dots instead falls back to `0.0`. -/
theorem C8_version_extraction :
    (extractMetadata (sl "GRT_PROC_English_stamped_Rev06.docx")).versionOriginal = sl "06" ∧
    (extractMetadata (sl "GRT_PROC_English_stamped_Rev06.docx")).versionFloat = 6 ∧
    (extractMetadata (sl "GRT_PROC_English_stamped_Rev07.docx")).versionOriginal = sl "07" ∧
    (extractMetadata (sl "GRT_PROC_English_stamped_Rev07.docx")).versionFloat = 7 ∧
    (extractMetadata (sl "GRT_PROC_English_stamped_Rev06.docx")).versionFloat <
      (extractMetadata (sl "GRT_PROC_English_stamped_Rev07.docx")).versionFloat ∧
    (extractMetadata (sl "SOP_v1.0.pdf")).versionFloat = 1 ∧
    (extractMetadata (sl "SOP-Manufacturing-Safety_v2.5.pdf")).versionFloat = 5 / 2 ∧
    (extractMetadata (sl "SOP_v1.0.pdf")).versionFloat <
      (extractMetadata (sl "SOP-Manufacturing-Safety_v2.5.pdf")).versionFloat ∧
    (extractMetadata (sl "Doc_rev2-03.pdf")).versionOriginal = sl "2" ∧
    (extractMetadata (sl "AT-GE-577-0002-01.pdfNov302025024051")).versionOriginal = sl "01" ∧
    (extractMetadata (sl "General_Policy_Draft.txt")).versionOriginal = sl "1.0" ∧
    (extractMetadata (sl "General_Policy_Draft.txt")).versionFloat = 1 ∧
    (∀ s₁ s₂ : List Char, s₁ ≠ [] → s₂ ≠ [] →
      (∀ c ∈ s₁, isDigitChar c = true) → (∀ c ∈ s₂, isDigitChar c = true) →
      digitsVal s₁ < digitsVal s₂ → normalizeVersion s₁ < normalizeVersion s₂) := by
  have h10 : (extractMetadata (sl "SOP_v1.0.pdf")).versionFloat = 1 := by
    rw [extract_versionFloat,
      show (extractMetadata (sl "SOP_v1.0.pdf")).versionOriginal = sl "1.0" from by decide,
      normalizeVersion_one_dot_zero]
  have h25 : (extractMetadata (sl "SOP-Manufacturing-Safety_v2.5.pdf")).versionFloat = 5 / 2 := by
    rw [extract_versionFloat,
      show (extractMetadata (sl "SOP-Manufacturing-Safety_v2.5.pdf")).versionOriginal =
        sl "2.5" from by decide,
      normalizeVersion_two_dot_five]
  have hg : (extractMetadata (sl "General_Policy_Draft.txt")).versionFloat = 1 := by
    rw [extract_versionFloat,
      show (extractMetadata (sl "General_Policy_Draft.txt")).versionOriginal =
        sl "1.0" from by decide,
      normalizeVersion_one_dot_zero]
  have h6 : (extractMetadata (sl "GRT_PROC_English_stamped_Rev06.docx")).versionFloat = 6 := by
    decide
  have h7 : (extractMetadata (sl "GRT_PROC_English_stamped_Rev07.docx")).versionFloat = 7 := by
    decide
  refine ⟨by decide, h6, by decide, h7, ?_, h10, h25, ?_, by decide, by decide, by decide,
    hg, ?_⟩
  · rw [h6, h7]; norm_num
  · rw [h10, h25]; norm_num
  · intro s₁ s₂ h1 h2 hd1 hd2 hlt
    rw [normalizeVersion_digits s₁ h1 hd1, normalizeVersion_digits s₂ h2 hd2]
    exact_mod_cast hlt

/-- Witness for C8's theorem: the digit-string monotonicity conjunct
instantiated at the `Rev06`/`Rev07` version tokens. -/
theorem C8_version_extraction_witness :
    normalizeVersion (sl "06") < normalizeVersion (sl "07") :=
  C8_version_extraction.2.2.2.2.2.2.2.2.2.2.2.2 (sl "06") (sl "07")
    (by decide) (by decide) (by decide) (by decide) (by decide)

/-! ## Theorems: chunker (orphan repair and absence of a quality filter) -/

theorem takeWhile_len_le (p : Char → Bool) (l : List Char) :
    (l.takeWhile p).length ≤ l.length := by
  induction l with
  | nil => simp
  | cons c cs ih =>
    rw [List.takeWhile_cons]
    by_cases h : p c
    · simp only [h, if_true, List.length_cons]
      omega
    · simp [h]

theorem pyStrip_eq_nil_iff (s : List Char) :
    pyStrip s = [] ↔ ∀ c ∈ s, pyIsWs c = true := by
  unfold pyStrip
  constructor
  · intro h c hc
    rw [List.reverse_eq_nil_iff, List.dropWhile_eq_nil_iff] at h
    by_cases hmem : c ∈ s.dropWhile pyIsWs
    · exact h c (List.mem_reverse.mpr hmem)
    · have hc2 : c ∈ s.takeWhile pyIsWs ++ s.dropWhile pyIsWs := by
        rw [List.takeWhile_append_dropWhile]; exact hc
      rcases List.mem_append.mp hc2 with h1 | h2
      · exact List.mem_takeWhile_imp h1
      · exact absurd h2 hmem
  · intro h
    have hdw : s.dropWhile pyIsWs = [] :=
      List.dropWhile_eq_nil_iff.mpr (fun c hc => h c hc)
    simp [hdw]

theorem pyStrip_ne_nil_of_mem (s : List Char) (c : Char) (hc : c ∈ s)
    (hw : pyIsWs c = false) : pyStrip s ≠ [] := by
  intro hnil
  have := (pyStrip_eq_nil_iff s).mp hnil c hc
  rw [hw] at this
  exact Bool.noConfusion this

theorem takeWhile_not_nl_eq_self (cs : List Char) (h : '\n' ∉ cs) :
    cs.takeWhile (fun c => ¬ c = '\n') = cs := by
  apply List.takeWhile_eq_self_iff.mpr
  intro c hc
  simp only [decide_eq_true_eq]
  intro he
  exact h (he ▸ hc)

theorem tryNonNl_full (after : List Char) (hnl : '\n' ∉ after) (hne : after ≠ []) :
    tryNonNl after (nonNlRunLen after) = some after.length := by
  obtain ⟨m, hm⟩ : ∃ m, after.length = m + 1 := by
    cases after with
    | nil => exact absurd rfl hne
    | cons a l => exact ⟨l.length, by simp⟩
  have hrun : nonNlRunLen after = after.length := by
    unfold nonNlRunLen
    rw [takeWhile_not_nl_eq_self after hnl]
  rw [hrun, hm]
  unfold tryNonNl
  rw [show after.drop (m + 1) = [] from by rw [← hm]; exact List.drop_length after]
  simp [allWs]

theorem tryWs_heading (rest : List Char) (hnl : '\n' ∉ rest) (h2 : 2 ≤ rest.length)
    (hw : 1 ≤ wsRunLen rest) :
    tryWs rest (wsRunLen rest) = some rest.length := by
  have hle : wsRunLen rest ≤ rest.length := takeWhile_len_le pyIsWs rest
  rcases lt_or_eq_of_le hle with hlt | heq
  · obtain ⟨k, hk⟩ : ∃ k, wsRunLen rest = k + 1 := by
      obtain ⟨k, hk⟩ := Nat.exists_eq_add_of_le hw
      exact ⟨k, by omega⟩
    rw [hk]
    unfold tryWs
    have hafter : '\n' ∉ rest.drop (k + 1) := fun hm => hnl (List.mem_of_mem_drop hm)
    have hane : rest.drop (k + 1) ≠ [] := by
      intro hnil
      have := congrArg List.length hnil
      simp [List.length_drop] at this
      omega
    rw [tryNonNl_full _ hafter hane]
    simp only [Option.some.injEq]
    rw [List.length_drop]
    omega
  · obtain ⟨k, hk⟩ : ∃ k, rest.length = k + 2 := by
      obtain ⟨k, hk⟩ := Nat.exists_eq_add_of_le h2
      exact ⟨k, by omega⟩
    rw [heq, hk]
    unfold tryWs
    have hd1 : rest.drop (k + 1 + 1) = [] := by
      have : rest.length ≤ k + 2 := hk.le
      exact List.drop_eq_nil_of_le (by omega)
    rw [hd1]
    have hrun0 : nonNlRunLen ([] : List Char) = 0 := rfl
    rw [hrun0]
    simp only [tryNonNl]
    unfold tryWs
    have hafter : '\n' ∉ rest.drop (k + 1) := fun hm => hnl (List.mem_of_mem_drop hm)
    have hane : rest.drop (k + 1) ≠ [] := by
      intro hnil
      have := congrArg List.length hnil
      simp [List.length_drop] at this
      omega
    rw [tryNonNl_full _ hafter hane]
    simp only [Option.some.injEq]
    rw [List.length_drop]
    omega

theorem takeWhile_hash_run (a : Nat) (w : Char) (tl : List Char) (hw : ¬ w = '#') :
    (List.replicate a '#' ++ w :: tl).takeWhile (fun c => c = '#') =
      List.replicate a '#' := by
  induction a with
  | zero => simp [List.takeWhile_cons, hw]
  | succ n ih => simp [List.replicate_succ, List.takeWhile_cons, ih]

theorem groupMatch_heading (a : Nat) (w : Char) (tl : List Char)
    (ha1 : 1 ≤ a) (ha6 : a ≤ 6) (hw : pyIsWs w = true) (htl : tl ≠ [])
    (hnl : '\n' ∉ w :: tl) :
    groupMatch (List.replicate a '#' ++ w :: tl) =
      some (List.replicate a '#' ++ w :: tl) := by
  have hwsharp : ¬ w = '#' := by
    intro he
    rw [he] at hw
    exact absurd hw (by decide)
  have hhash : hashRunLen (List.replicate a '#' ++ w :: tl) = a := by
    unfold hashRunLen
    rw [takeWhile_hash_run a w tl hwsharp, List.length_replicate]
  have hdrop : (List.replicate a '#' ++ w :: tl).drop a = w :: tl := by
    have := List.drop_left (List.replicate a '#') (w :: tl)
    rwa [List.length_replicate] at this
  have hws1 : 1 ≤ wsRunLen (w :: tl) := by
    unfold wsRunLen
    rw [List.takeWhile_cons]
    simp [hw]
  have h2 : 2 ≤ (w :: tl).length := by
    cases tl with
    | nil => exact absurd rfl htl
    | cons x xs => simp
  unfold groupMatch
  rw [hhash, hdrop, if_pos ⟨ha1, ha6⟩, tryWs_heading (w :: tl) hnl h2 hws1]
  have htakeall : (List.replicate a '#' ++ w :: tl).take (a + (w :: tl).length) =
      List.replicate a '#' ++ w :: tl := by
    apply List.take_of_length_le
    simp
  simp [htakeall]

theorem groupMatch_not_hash (cs : List Char) (h : cs.head? ≠ some '#') :
    groupMatch cs = none := by
  have hrun : hashRunLen cs = 0 := by
    unfold hashRunLen
    cases cs with
    | nil => simp
    | cons c rest =>
      have hc : ¬ c = '#' := fun he => h (by simp [he])
      simp [List.takeWhile_cons, hc]
  unfold groupMatch
  rw [hrun]
  simp

theorem noHashAfterNl_cons (c : Char) (rest : List Char)
    (h : noHashAfterNl (c :: rest) = true) : noHashAfterNl rest = true := by
  unfold noHashAfterNl at h
  by_cases hc : c = '\n' ∧ rest.head? = some '#'
  · rw [if_pos hc] at h
    exact Bool.noConfusion h
  · rwa [if_neg hc] at h

theorem searchFrom_body (h : List Char) (hh : groupMatch h = some h) :
    ∀ body : List Char, noHashAfterNl body = true →
      ∀ p, searchOrphanFrom (body ++ '\n' :: h) p = some (p + body.length, h) := by
  intro body
  induction body with
  | nil =>
    intro _ p
    simp [searchOrphanFrom, hh]
  | cons c rest ih =>
    intro hb p
    rw [List.cons_append]
    unfold searchOrphanFrom
    by_cases hc : c = '\n'
    · rw [if_pos hc]
      have hhead : (rest ++ '\n' :: h).head? ≠ some '#' := by
        cases rest with
        | nil => simp
        | cons d rest' =>
          have hnd : ¬ (c = '\n' ∧ (d :: rest').head? = some '#') := by
            intro hcon
            unfold noHashAfterNl at hb
            rw [if_pos hcon] at hb
            exact Bool.noConfusion hb
          simp only [List.cons_append, List.head?_cons, ne_eq, Option.some.injEq]
          intro hd
          exact hnd ⟨hc, by simp [hd]⟩
      rw [groupMatch_not_hash _ hhead, ih (noHashAfterNl_cons c rest hb) (p + 1)]
      simp only [Option.some.injEq, Prod.mk.injEq, List.length_cons]
      exact ⟨by omega, trivial⟩
    · rw [if_neg hc, ih (noHashAfterNl_cons c rest hb) (p + 1)]
      simp only [Option.some.injEq, Prod.mk.injEq, List.length_cons]
      exact ⟨by omega, trivial⟩

theorem searchOrphan_body (h body : List Char) (hh : groupMatch h = some h)
    (hb0 : body.head? ≠ some '#') (hb1 : noHashAfterNl body = true) :
    searchOrphan (body ++ '\n' :: h) = some (body.length, h) := by
  have hbh : (body ++ '\n' :: h).head? ≠ some '#' := by
    cases body with
    | nil => simp
    | cons c rest =>
      simp only [List.cons_append, List.head?_cons, ne_eq, Option.some.injEq]
      intro hc
      exact hb0 (by simp [hc])
  unfold searchOrphan
  rw [groupMatch_not_hash _ hbh, searchFrom_body h hh body hb1 0]
  simp

theorem chunkFromBase_small (splitter : MDNode → List MDNode) (nodes : List MDNode)
    (hlen : ∀ n ∈ rebalance nodes, n.text.length ≤ 3000) :
    chunkFromBaseNodes splitter nodes =
      (rebalance nodes).map (fun n => { n with text := contextStr n ++ n.text }) := by
  unfold chunkFromBaseNodes
  revert hlen
  generalize rebalance nodes = l
  intro hlen
  induction l with
  | nil => simp
  | cons x xs ih =>
    rw [List.flatMap_cons, List.map_cons]
    rw [if_neg (not_lt.mpr (hlen x (List.mem_cons_self _ _)))]
    rw [ih (fun n hn => hlen n (List.mem_cons_of_mem _ hn))]
    simp

theorem rebalanceF_pair (f : Nat) (m1 m2 : MDNode) :
    rebalanceF (f + 1 + 1) [m1, m2] =
      match searchOrphan m1.text with
      | some pg =>
        if m1.filename.getD (sl "A") = m2.filename.getD (sl "B") then
          (if pyStrip (m1.text.take pg.1) ≠ []
            then [{ m1 with text := pyStrip (m1.text.take pg.1) }] else []) ++
            rebalanceF (f + 1) [{ m2 with text := pg.2 ++ '\n' :: '\n' :: m2.text }]
        else m1 :: rebalanceF (f + 1) [m2]
      | none => m1 :: rebalanceF (f + 1) [m2] := by
  rfl

theorem rebalanceF_one (f : Nat) (n : MDNode) :
    rebalanceF (f + 1) [n] = if pyStrip n.text ≠ [] then [n] else [] := rfl

/-- **C7** (Orphan-header repair).  For an adjacent pair of structural
blocks of the same source file where the first block's text ends in a
markdown heading line (1–6 `#`s, whitespace, nonempty line body) and no
line of the first block's preceding text starts with `#`, the repaired
output moves that heading line to the start of the next block (joined
as `f"{header}\n\n{next}"` in the source) and strips it from the first
block; a first block left empty is dropped entirely.  Moreover the
repair runs before citation-header injection: the full chunking
pipeline injects the `CONTEXT:` header onto the *repaired* blocks, for
any sub-splitter. -/
theorem C7_orphan_header_repair
    (a : Nat) (w : Char) (tl body next fn : List Char) (m1 m2 : MDNode)
    (splitter : MDNode → List MDNode)
    (ha1 : 1 ≤ a) (ha6 : a ≤ 6) (hw : pyIsWs w = true) (htl : tl ≠ [])
    (hnl : '\n' ∉ w :: tl)
    (ht1 : m1.text = body ++ '\n' :: (List.replicate a '#' ++ w :: tl))
    (ht2 : m2.text = next)
    (hf1 : m1.filename = some fn) (hf2 : m2.filename = some fn)
    (hb0 : body.head? ≠ some '#') (hb1 : noHashAfterNl body = true)
    (hs1 : (pyStrip body).length ≤ 3000)
    (hs2 : ((List.replicate a '#' ++ w :: tl) ++ '\n' :: '\n' :: next).length ≤ 3000) :
    rebalance [m1, m2] =
      (if pyStrip body ≠ [] then [{ m1 with text := pyStrip body }] else []) ++
        [{ m2 with text := (List.replicate a '#' ++ w :: tl) ++ '\n' :: '\n' :: next }] ∧
    chunkFromBaseNodes splitter [m1, m2] =
      ((if pyStrip body ≠ [] then [{ m1 with text := pyStrip body }] else []) ++
        [{ m2 with text := (List.replicate a '#' ++ w :: tl) ++ '\n' :: '\n' :: next }]).map
        (fun n : MDNode => { n with text := contextStr n ++ n.text }) := by
  have hg : groupMatch (List.replicate a '#' ++ w :: tl) =
      some (List.replicate a '#' ++ w :: tl) :=
    groupMatch_heading a w tl ha1 ha6 hw htl hnl
  have hso : searchOrphan m1.text = some (body.length, List.replicate a '#' ++ w :: tl) := by
    rw [ht1]
    exact searchOrphan_body _ body hg hb0 hb1
  have hcut : m1.text.take body.length = body := by
    rw [ht1]
    exact List.take_left body _
  have hb2ne : pyStrip ((List.replicate a '#' ++ w :: tl) ++ '\n' :: '\n' :: m2.text) ≠ [] := by
    apply pyStrip_ne_nil_of_mem _ '#'
    · apply List.mem_append_left
      exact List.mem_append_left _ (List.mem_replicate.mpr ⟨by omega, rfl⟩)
    · decide
  have hreb : rebalance [m1, m2] =
      (if pyStrip body ≠ [] then [{ m1 with text := pyStrip body }] else []) ++
        [{ m2 with text := (List.replicate a '#' ++ w :: tl) ++ '\n' :: '\n' :: next }] := by
    show rebalanceF (0 + 1 + 1) [m1, m2] = _
    rw [rebalanceF_pair, hso]
    simp only [hf1, hf2, Option.getD_some, hcut, if_true]
    rw [rebalanceF_one]
    rw [if_pos hb2ne, ht2]
  have hlen : ∀ n ∈ rebalance [m1, m2], n.text.length ≤ 3000 := by
    intro n hn
    rw [hreb] at hn
    rcases List.mem_append.mp hn with h1 | h2
    · by_cases hpb : pyStrip body ≠ []
      · rw [if_pos hpb] at h1
        rcases List.mem_singleton.mp h1 with rfl
        simpa using hs1
      · rw [if_neg hpb] at h1
        exact absurd h1 (List.not_mem_nil n)
    · rcases List.mem_singleton.mp h2 with rfl
      simpa using hs2
  exact ⟨hreb, by rw [chunkFromBase_small splitter [m1, m2] hlen, hreb]⟩

/-- Witness for C7 at the spec's own example: `"## 2.0 Scope"` stranded
at the end of the first block moves to the head of
`"This scope applies..."`. -/
theorem C7_orphan_header_repair_witness :
    rebalance
      [⟨sl "Intro text\n## 2.0 Scope", some (sl "f.pdf"), some (sl "Doc A"),
          some (sl "1.0"), some (sl "Page 2"), none⟩,
        ⟨sl "This scope applies...", some (sl "f.pdf"), some (sl "Doc A"),
          some (sl "1.0"), some (sl "Page 3"), none⟩] =
      [⟨sl "Intro text", some (sl "f.pdf"), some (sl "Doc A"),
          some (sl "1.0"), some (sl "Page 2"), none⟩,
        ⟨sl "## 2.0 Scope\n\nThis scope applies...", some (sl "f.pdf"), some (sl "Doc A"),
          some (sl "1.0"), some (sl "Page 3"), none⟩] := by
  have h := C7_orphan_header_repair 2 ' ' (sl "2.0 Scope") (sl "Intro text")
    (sl "This scope applies...") (sl "f.pdf")
    ⟨sl "Intro text\n## 2.0 Scope", some (sl "f.pdf"), some (sl "Doc A"),
      some (sl "1.0"), some (sl "Page 2"), none⟩
    ⟨sl "This scope applies...", some (sl "f.pdf"), some (sl "Doc A"),
      some (sl "1.0"), some (sl "Page 3"), none⟩
    idSplitter (by decide) (by decide) (by decide) (by decide) (by decide)
    (by decide) (by decide) (by decide) (by decide) (by decide) (by decide)
    (by decide) (by decide)
  exact h.1.trans (by decide)

/-- **C6 counterexample**.  No quality filter exists in the chunker: a
structural block whose entire body is the boilerplate phrase `"n/a"`
(3 characters, below any 15–70-character threshold) is *not* dropped —
`chunk_documents` emits it as a passage (with the citation header
prefixed), contradicting the claim that such near-empty passages never
appear in the chunker's output. -/
theorem C6_counterexample :
    chunkFromBaseNodes idSplitter [naBase] =
      [{ naBase with text := contextStr naBase ++ sl "n/a" }] ∧
    (sl "n/a").length < 15 := by
  decide

/-- **C6 amended**.  The chunker applies no per-passage quality
filter: every rebalanced block (of splitter-free size, ≤ 3000 chars)
is emitted as exactly one passage whose text is the citation context
header followed by the block's body unchanged — nothing is dropped for
being short or boilerplate.  (The only near-empty filtering in the
pipeline is the cleaner's page-level drop of pages with ≤ 50 cleaned
characters and the rebalancer's drop of blocks emptied by header
relocation.) -/
theorem C6_no_quality_filter (splitter : MDNode → List MDNode) (nodes : List MDNode)
    (hlen : ∀ n ∈ rebalance nodes, n.text.length ≤ 3000) :
    (chunkFromBaseNodes splitter nodes).map MDNode.text =
      (rebalance nodes).map (fun n => contextStr n ++ n.text) := by
  rw [chunkFromBase_small splitter nodes hlen]
  simp

theorem C6_no_quality_filter_witness :
    (chunkFromBaseNodes idSplitter [naBase]).map MDNode.text =
      (rebalance [naBase]).map (fun n => contextStr n ++ n.text) :=
  C6_no_quality_filter idSplitter [naBase] (by decide)

/-! ## Theorems: retrieval engine -/

/-- **C10** (empty-query short-circuit).  A whitespace-only query makes
`FASAEngine.query` return the fixed answer with no sources and makes
`FASAEngine.search` return `[]`, each without touching the engine or
the store (the result is independent of the engine/retriever
function); a keyword query whose terms are all stop words likewise
returns `[]` before the retriever is consulted. -/
theorem C10_empty_query_short_circuit :
    (∀ (runEngine : List Char → EngResp) (q : List Char), pyStrip q = [] →
      queryFASA runEngine q = (sl "Please enter a valid query.", [])) ∧
    (∀ (retrieve : List (List Char) → List Cand) (q : List Char), pyStrip q = [] →
      searchFASA retrieve q = []) ∧
    (∀ (retrieve : List (List Char) → List Cand) (q : List Char),
      cleanedTerms q = [] → searchFASA retrieve q = []) := by
  refine ⟨?_, ?_, ?_⟩
  · intro e q h
    unfold queryFASA
    rw [if_pos h]
  · intro r q h
    unfold searchFASA
    rw [if_pos h]
  · intro r q h
    unfold searchFASA
    by_cases h2 : pyStrip q = []
    · rw [if_pos h2]
    · rw [if_neg h2, if_pos h]

/-- Witness for C10 at a blank query, a tab-and-space query, and the
all-stop-word query `"the and"`. -/
theorem C10_empty_query_short_circuit_witness :
    queryFASA (fun _ => ⟨sl "ANSWER", c4Store⟩) (sl "   ") =
      (sl "Please enter a valid query.", []) ∧
    searchFASA (fun _ => c4Store) (sl " \t ") = [] ∧
    searchFASA (fun _ => c4Store) (sl "the and") = [] :=
  ⟨C10_empty_query_short_circuit.1 (fun _ => ⟨sl "ANSWER", c4Store⟩) (sl "   ") (by decide),
    C10_empty_query_short_circuit.2.1 (fun _ => c4Store) (sl " \t ") (by decide),
    C10_empty_query_short_circuit.2.2 (fun _ => c4Store) (sl "the and") (by decide)⟩

/-- **C4** (focused retrieval floor — refuted on the code; code bug).
The `Active`-only filter holds, but no relevance floor is applied:
`_build_engine` constructs `SimilarityPostprocessor(cutoff=0.05)`
with a misspelled keyword (the field is `similarity_cutoff`, as the
repository's own `reranker.py` spells it), which the pydantic-based
component silently ignores, leaving `similarity_cutoff = None`.  On a
store whose only `Active` passage scores 0.01 for the query (below the
claimed 0.05 floor) while an `Inactive` passage scores 0.9, the
focused path returns the 0.01-scoring passage — below the floor — and
correctly never returns the higher-scoring `Inactive` one. -/
theorem C4_no_relevance_floor :
    builtEngineCutoff = none ∧
    (queryFASA (builtEngine c4Store) (sl "cleaning procedure")).2 =
      [⟨sl "SOP A", sl "a.pdf", sl "Page 2", round3 (1 / 100)⟩] ∧
    (1 : ℚ) / 100 < 5 / 100 ∧
    (∀ info ∈ (queryFASA (builtEngine c4Store) (sl "cleaning procedure")).2,
      info.sopTitle ≠ sl "SOP B") := by
  have h1 : (queryFASA (builtEngine c4Store) (sl "cleaning procedure")).2 =
      [⟨sl "SOP A", sl "a.pdf", sl "Page 2", round3 (1 / 100)⟩] := rfl
  refine ⟨rfl, h1, by norm_num, ?_⟩
  intro info hinfo
  rw [h1] at hinfo
  rcases List.mem_singleton.mp hinfo with rfl
  decide

/-! ### Support lemmas for the keyword-search grouping fold -/

theorem addSnippets_len_le (snips terms : List (List Char)) (ct page : List Char)
    (h : snips.length ≤ 3) : (addSnippets snips terms ct page).length ≤ 3 := by
  unfold addSnippets
  by_cases hlt : snips.length < 3
  · rw [if_pos hlt, List.length_append]
    have h2 : (((findMatches terms ct).map (mkSnippet ct page)).take
        (3 - snips.length)).length ≤ 3 - snips.length := List.length_take_le _ _
    omega
  · rw [if_neg hlt]
    exact h

theorem lookupAssoc_isSome_of_ex (l : List (List Char × SGroup)) (k : List Char)
    (h : ∃ kv ∈ l, kv.1 = k) : (lookupAssoc l k).isSome = true := by
  obtain ⟨kv, hm, hk⟩ := h
  unfold lookupAssoc
  rcases hf : l.find? (fun kv => kv.1 == k) with _ | kv2
  · exfalso
    have := List.find?_eq_none.mp hf kv hm
    simp [hk] at this
  · rw [hf]
    simp

theorem ex_of_lookupAssoc_isSome (l : List (List Char × SGroup)) (k : List Char)
    (h : (lookupAssoc l k).isSome = true) : ∃ kv ∈ l, kv.1 = k := by
  unfold lookupAssoc at h
  rcases hf : l.find? (fun kv => kv.1 == k) with _ | kv
  · rw [hf] at h
    simp at h
  · exact ⟨kv, List.mem_of_find?_eq_some hf, by simpa using List.find?_some hf⟩

theorem lookupAssoc_mem (l : List (List Char × SGroup)) (k : List Char) (g : SGroup)
    (h : lookupAssoc l k = some g) : (k, g) ∈ l := by
  unfold lookupAssoc at h
  rcases hf : l.find? (fun kv => kv.1 == k) with _ | kv
  · rw [hf] at h
    exact Option.noConfusion h
  · obtain ⟨k1, g1⟩ := kv
    rw [hf] at h
    have hm := List.mem_of_find?_eq_some hf
    have hk : k1 = k := by simpa using List.find?_some hf
    have hg : g1 = g := by injection h
    rw [← hk, ← hg]
    exact hm

theorem not_ex_of_lookupAssoc_none (l : List (List Char × SGroup)) (k : List Char)
    (h : lookupAssoc l k = none) : ∀ kv ∈ l, kv.1 ≠ k := by
  intro kv hm hk
  have h2 : (lookupAssoc l k).isSome = true := lookupAssoc_isSome_of_ex l k ⟨kv, hm, hk⟩
  rw [h] at h2
  simp at h2

theorem mem_setAssoc (l : List (List Char × SGroup)) (k : List Char) (g : SGroup) :
    ∀ kv ∈ setAssoc l k g, kv ∈ l ∨ kv = (k, g) := by
  induction l with
  | nil =>
    intro kv h
    simp [setAssoc] at h
  | cons hd rest ih =>
    intro kv h
    simp only [setAssoc] at h
    by_cases hh : hd.1 = k
    · rw [if_pos hh] at h
      rcases List.mem_cons.mp h with rfl | h2
      · exact Or.inr rfl
      · exact Or.inl (List.mem_cons_of_mem _ h2)
    · rw [if_neg hh] at h
      rcases List.mem_cons.mp h with rfl | h2
      · exact Or.inl (List.mem_cons_self _ _)
      · rcases ih kv h2 with h3 | h4
        · exact Or.inl (List.mem_cons_of_mem _ h3)
        · exact Or.inr h4

theorem exists_key_setAssoc (l : List (List Char × SGroup)) (k k' : List Char) (g : SGroup)
    (h : ∃ kv ∈ l, kv.1 = k') : ∃ kv ∈ setAssoc l k g, kv.1 = k' := by
  induction l with
  | nil =>
    obtain ⟨kv, hm, _⟩ := h
    exact absurd hm (List.not_mem_nil kv)
  | cons hd rest ih =>
    obtain ⟨kv, hm, hk⟩ := h
    simp only [setAssoc]
    by_cases hh : hd.1 = k
    · rw [if_pos hh]
      rcases List.mem_cons.mp hm with rfl | hm2
      · exact ⟨(k, g), List.mem_cons_self _ _, by rw [← hh]; exact hk⟩
      · exact ⟨kv, List.mem_cons_of_mem _ hm2, hk⟩
    · rw [if_neg hh]
      rcases List.mem_cons.mp hm with rfl | hm2
      · exact ⟨kv, List.mem_cons_self _ _, hk⟩
      · obtain ⟨kv2, hm2b, hk2⟩ := ih ⟨kv, hm2, hk⟩
        exact ⟨kv2, List.mem_cons_of_mem _ hm2b, hk2⟩

theorem groupStep_pos_none (terms : List (List Char)) (acc : List (List Char × SGroup))
    (c : Cand) (hm : hasTermMatch terms (c.originalText.getD c.text) = true)
    (hl : lookupAssoc acc (c.sopTitle.getD (sl "Unknown SOP")) = none) :
    groupStep terms acc c = acc ++ [(c.sopTitle.getD (sl "Unknown SOP"),
      ⟨c.fileName.getD (sl "Unknown File"), c.score, 1,
        addSnippets [] terms (cleanSnippetText (c.originalText.getD c.text))
          (c.pageLabel.getD (sl "?"))⟩)] := by
  unfold groupStep
  rw [if_pos hm, hl]

theorem groupStep_pos_some (terms : List (List Char)) (acc : List (List Char × SGroup))
    (c : Cand) (g : SGroup) (hm : hasTermMatch terms (c.originalText.getD c.text) = true)
    (hl : lookupAssoc acc (c.sopTitle.getD (sl "Unknown SOP")) = some g) :
    groupStep terms acc c = setAssoc acc (c.sopTitle.getD (sl "Unknown SOP"))
      ⟨g.fileName, g.highestScore, g.matchCount + 1,
        addSnippets g.snippets terms (cleanSnippetText (c.originalText.getD c.text))
          (c.pageLabel.getD (sl "?"))⟩ := by
  unfold groupStep
  rw [if_pos hm, hl]

theorem groupStep_neg (terms : List (List Char)) (acc : List (List Char × SGroup))
    (c : Cand) (hm : ¬ hasTermMatch terms (c.originalText.getD c.text) = true) :
    groupStep terms acc c = acc := by
  unfold groupStep
  rw [if_neg hm]

theorem searchInv_step (terms : List (List Char)) (acc : List (List Char × SGroup))
    (processed : List Cand) (c : Cand)
    (hmono : ∀ p ∈ processed, c.score ≤ p.score)
    (hinv : searchInv terms acc processed) :
    searchInv terms (groupStep terms acc c) (processed ++ [c]) := by
  unfold searchInv at hinv ⊢
  obtain ⟨hcap, hbest, hcov⟩ := hinv
  by_cases hm : hasTermMatch terms (c.originalText.getD c.text) = true
  · rcases hl : lookupAssoc acc (c.sopTitle.getD (sl "Unknown SOP")) with _ | g
    · rw [groupStep_pos_none terms acc c hm hl]
      refine ⟨?_, ?_, ?_⟩
      · intro kv hkv
        rcases List.mem_append.mp hkv with h1 | h2
        · exact hcap kv h1
        · rcases List.mem_singleton.mp h2 with rfl
          exact addSnippets_len_le [] terms _ _ (by decide)
      · intro kv hkv
        rcases List.mem_append.mp hkv with h1 | h2
        · obtain ⟨c0, hc0p, hc0t, hc0m, hc0s, hc0max⟩ := hbest kv h1
          refine ⟨c0, List.mem_append_left _ hc0p, hc0t, hc0m, hc0s, ?_⟩
          intro c' hc' ht' hm'
          rcases List.mem_append.mp hc' with hp | hs
          · exact hc0max c' hp ht' hm'
          · rcases List.mem_singleton.mp hs with rfl
            exact absurd ht'.symm (not_ex_of_lookupAssoc_none acc _ hl kv h1)
        · rcases List.mem_singleton.mp h2 with rfl
          refine ⟨c, List.mem_append_right _ (List.mem_singleton_self _), rfl, hm, rfl, ?_⟩
          intro c' hc' ht' hm'
          rcases List.mem_append.mp hc' with hp | hs
          · exfalso
            have h3 := hcov c' hp hm'
            rw [ht'] at h3
            rw [hl] at h3
            simp at h3
          · rcases List.mem_singleton.mp hs with rfl
            exact le_refl _
      · intro c' hc' hm'
        rcases List.mem_append.mp hc' with hp | hs
        · have h3 := hcov c' hp hm'
          obtain ⟨kv, hkv, hk⟩ := ex_of_lookupAssoc_isSome acc _ h3
          exact lookupAssoc_isSome_of_ex _ _ ⟨kv, List.mem_append_left _ hkv, hk⟩
        · rcases List.mem_singleton.mp hs with rfl
          exact lookupAssoc_isSome_of_ex _ _
            ⟨_, List.mem_append_right _ (List.mem_singleton_self _), rfl⟩
    · have hgmem : (c.sopTitle.getD (sl "Unknown SOP"), g) ∈ acc := lookupAssoc_mem _ _ _ hl
      rw [groupStep_pos_some terms acc c g hm hl]
      refine ⟨?_, ?_, ?_⟩
      · intro kv hkv
        rcases mem_setAssoc acc _ _ kv hkv with h1 | rfl
        · exact hcap kv h1
        · exact addSnippets_len_le g.snippets terms _ _ (hcap _ hgmem)
      · intro kv hkv
        rcases mem_setAssoc acc _ _ kv hkv with h1 | rfl
        · obtain ⟨c0, hc0p, hc0t, hc0m, hc0s, hc0max⟩ := hbest kv h1
          refine ⟨c0, List.mem_append_left _ hc0p, hc0t, hc0m, hc0s, ?_⟩
          intro c' hc' ht' hm'
          rcases List.mem_append.mp hc' with hp | hs
          · exact hc0max c' hp ht' hm'
          · rcases List.mem_singleton.mp hs with rfl
            exact hmono c0 hc0p
        · obtain ⟨c0, hc0p, hc0t, hc0m, hc0s, hc0max⟩ := hbest _ hgmem
          refine ⟨c0, List.mem_append_left _ hc0p, hc0t, hc0m, hc0s, ?_⟩
          intro c' hc' ht' hm'
          rcases List.mem_append.mp hc' with hp | hs
          · exact hc0max c' hp ht' hm'
          · rcases List.mem_singleton.mp hs with rfl
            exact hmono c0 hc0p
      · intro c' hc' hm'
        rcases List.mem_append.mp hc' with hp | hs
        · have hsome := hcov c' hp hm'
          obtain ⟨kv, hkv, hk⟩ := ex_of_lookupAssoc_isSome acc _ hsome
          exact lookupAssoc_isSome_of_ex _ _ (exists_key_setAssoc acc _ _ _ ⟨kv, hkv, hk⟩)
        · rcases List.mem_singleton.mp hs with rfl
          exact lookupAssoc_isSome_of_ex _ _ (exists_key_setAssoc acc _ _ _ ⟨_, hgmem, rfl⟩)
  · rw [groupStep_neg terms acc c hm]
    refine ⟨hcap, ?_, ?_⟩
    · intro kv hkv
      obtain ⟨c0, hc0p, hc0t, hc0m, hc0s, hc0max⟩ := hbest kv hkv
      refine ⟨c0, List.mem_append_left _ hc0p, hc0t, hc0m, hc0s, ?_⟩
      intro c' hc' ht' hm'
      rcases List.mem_append.mp hc' with hp | hs
      · exact hc0max c' hp ht' hm'
      · rcases List.mem_singleton.mp hs with rfl
        exact absurd hm' hm
    · intro c' hc' hm'
      rcases List.mem_append.mp hc' with hp | hs
      · exact hcov c' hp hm'
      · rcases List.mem_singleton.mp hs with rfl
        exact absurd hm' hm

theorem searchInv_fold (terms : List (List Char)) :
    ∀ (cands : List Cand) (acc : List (List Char × SGroup)) (processed : List Cand),
      List.Pairwise (fun a b : Cand => b.score ≤ a.score) cands →
      (∀ cn ∈ cands, ∀ p ∈ processed, cn.score ≤ p.score) →
      searchInv terms acc processed →
      searchInv terms (cands.foldl (groupStep terms) acc) (processed ++ cands) := by
  intro cands
  induction cands with
  | nil =>
    intro acc processed _ _ h
    simpa using h
  | cons cn rest ih =>
    intro acc processed hpw hmix hinv
    rw [List.foldl_cons]
    have hpw2 := List.pairwise_cons.mp hpw
    have hstep := searchInv_step terms acc processed cn
      (hmix cn (List.mem_cons_self _ _)) hinv
    have hmix2 : ∀ a ∈ rest, ∀ p ∈ processed ++ [cn], a.score ≤ p.score := by
      intro a ha p hp
      rcases List.mem_append.mp hp with h1 | h2
      · exact hmix a (List.mem_cons_of_mem _ ha) p h1
      · rcases List.mem_singleton.mp h2 with rfl
        exact hpw2.1 a ha
    have h4 := ih (groupStep terms acc cn) (processed ++ [cn]) hpw2.2 hmix2 hstep
    have h5 : processed ++ [cn] ++ rest = processed ++ cn :: rest := by simp
    rw [h5] at h4
    exact h4

theorem mem_insertDescBy {α : Type} (key : α → ℚ) (x : α) :
    ∀ (l : List α), ∀ y ∈ insertDescBy key x l, y = x ∨ y ∈ l := by
  intro l
  induction l with
  | nil =>
    intro y hy
    simp only [insertDescBy] at hy
    exact Or.inl (List.mem_singleton.mp hy)
  | cons z zs ih =>
    intro y hy
    simp only [insertDescBy] at hy
    by_cases hk : key x < key z
    · rw [if_pos hk] at hy
      rcases List.mem_cons.mp hy with rfl | h2
      · exact Or.inr (List.mem_cons_self _ _)
      · rcases ih y h2 with h3 | h4
        · exact Or.inl h3
        · exact Or.inr (List.mem_cons_of_mem _ h4)
    · rw [if_neg hk] at hy
      rcases List.mem_cons.mp hy with rfl | h2
      · exact Or.inl rfl
      · rcases List.mem_cons.mp h2 with rfl | h3
        · exact Or.inr (List.mem_cons_self _ _)
        · exact Or.inr (List.mem_cons_of_mem _ h3)

theorem mem_sortDescBy {α : Type} (key : α → ℚ) :
    ∀ (l : List α), ∀ y ∈ sortDescBy key l, y ∈ l := by
  intro l
  induction l with
  | nil =>
    intro y hy
    simp only [sortDescBy] at hy
    exact absurd hy (List.not_mem_nil y)
  | cons z zs ih =>
    intro y hy
    simp only [sortDescBy] at hy
    rcases mem_insertDescBy key z (sortDescBy key zs) y hy with rfl | h2
    · exact List.mem_cons_self _ _
    · exact List.mem_cons_of_mem _ (ih y h2)

theorem insertDescBy_sorted {α : Type} (key : α → ℚ) (x : α) :
    ∀ (l : List α), l.Pairwise (fun a b => key b ≤ key a) →
      (insertDescBy key x l).Pairwise (fun a b => key b ≤ key a) := by
  intro l
  induction l with
  | nil =>
    intro _
    simp [insertDescBy]
  | cons z zs ih =>
    intro h
    obtain ⟨hz, hzs⟩ := List.pairwise_cons.mp h
    simp only [insertDescBy]
    by_cases hk : key x < key z
    · rw [if_pos hk]
      refine List.pairwise_cons.mpr ⟨?_, ih hzs⟩
      intro y hy
      rcases mem_insertDescBy key x zs y hy with rfl | h2
      · exact le_of_lt hk
      · exact hz y h2
    · rw [if_neg hk]
      refine List.pairwise_cons.mpr ⟨?_, h⟩
      intro y hy
      rcases List.mem_cons.mp hy with rfl | h2
      · exact not_lt.mp hk
      · exact le_trans (hz y h2) (not_lt.mp hk)

theorem sortDescBy_sorted {α : Type} (key : α → ℚ) :
    ∀ (l : List α), (sortDescBy key l).Pairwise (fun a b => key b ≤ key a) := by
  intro l
  induction l with
  | nil => simp [sortDescBy]
  | cons z zs ih =>
    simp only [sortDescBy]
    exact insertDescBy_sorted key z (sortDescBy key zs) ih

/-- **C9** (keyword discovery postcondition).  For a non-blank query
whose normalized terms are not all stop words, with the broad
retriever returning a descending-by-score candidate list: every
returned group row is backed by a candidate of that SOP title in which
at least one normalized term occurs as a whole word (OR semantics),
the row's relevance is the rounded best score among that title's
matching candidates, every group holds at most 3 snippets, and the
rows come out sorted by descending relevance. -/
theorem C9_keyword_discovery (q : List Char) (cands : List Cand)
    (hq : ¬ pyStrip q = []) (hterms : ¬ cleanedTerms q = [])
    (hsorted : List.Pairwise (fun a b : Cand => b.score ≤ a.score) cands) :
    (∀ r ∈ searchFASA (fun _ => cands) q,
       ∃ c ∈ cands,
         c.sopTitle.getD (sl "Unknown SOP") = r.sopTitle ∧
         hasTermMatch (cleanedTerms q) (c.originalText.getD c.text) = true ∧
         r.relevance = round3 c.score ∧
         ∀ c' ∈ cands, c'.sopTitle.getD (sl "Unknown SOP") = r.sopTitle →
           hasTermMatch (cleanedTerms q) (c'.originalText.getD c'.text) = true →
           c'.score ≤ c.score) ∧
    (∀ kv ∈ searchGroups (cleanedTerms q) cands, kv.2.snippets.length ≤ 3) ∧
    (searchFASA (fun _ => cands) q).Pairwise
      (fun r1 r2 => r2.relevance ≤ r1.relevance) := by
  have hsf : searchFASA (fun _ => cands) q =
      sortDescBy SResult.relevance (mkResults (searchGroups (cleanedTerms q) cands)) := by
    unfold searchFASA searchFromCandidates
    rw [if_neg hq, if_neg hterms]
  have hbase : searchInv (cleanedTerms q) [] [] := by
    unfold searchInv
    refine ⟨?_, ?_, ?_⟩ <;> intro x hx <;> exact absurd hx (List.not_mem_nil x)
  have hinv := searchInv_fold (cleanedTerms q) cands [] [] hsorted
    (by intro a ha p hp; exact absurd hp (List.not_mem_nil p)) hbase
  rw [List.nil_append] at hinv
  have hinv2 : searchInv (cleanedTerms q) (searchGroups (cleanedTerms q) cands) cands := hinv
  unfold searchInv at hinv2
  obtain ⟨hcap, hbest, _⟩ := hinv2
  refine ⟨?_, hcap, ?_⟩
  · intro r hr
    rw [hsf] at hr
    have hr2 := mem_sortDescBy SResult.relevance _ r hr
    obtain ⟨kv, hkv, hre⟩ := List.mem_map.mp hr2
    obtain ⟨c0, hc0p, hc0t, hc0m, hc0s, hc0max⟩ := hbest kv hkv
    subst hre
    refine ⟨c0, hc0p, hc0t, hc0m, ?_, ?_⟩
    · show round3 kv.2.highestScore = round3 c0.score
      rw [hc0s]
    · intro c' hc' ht' hm'
      exact hc0max c' hc' ht' hm'
  · rw [hsf]
    exact sortDescBy_sorted SResult.relevance _

/-- Witness for C9 on the concrete descending candidate list
`c9Cands` and the query `"glove cleaning"`: every group built by the
grouping fold holds at most 3 snippets. -/
theorem C9_keyword_discovery_witness :
    ((searchGroups (cleanedTerms (sl "glove cleaning")) c9Cands).all
      (fun kv => decide (kv.2.snippets.length ≤ 3))) = true := by
  have h := (C9_keyword_discovery (sl "glove cleaning") c9Cands (by decide) (by decide)
    (by decide)).2.1
  rw [List.all_eq_true]
  intro kv hkv
  exact decide_eq_true (h kv hkv)
